import Mathlib

/-!
# protoc-gen-gotemplate: the template encoder and the output merge

A shallow embedding of `encoder.go` and of the merge loop of `main.go`.

* Go strings are byte sequences: `Bytes := List UInt8`; `len` is `List.length`.
* The functions of `path/filepath` the encoder calls (`Clean`, `Dir`, `Base`,
  `Ext`, `Join`) are embedded for the Unix build of the Go standard library
  (separator `/`, no volume names).
* `text/template`, the operating system and the protobuf extension registry are
  parameters of the embedding.
* Goroutines and channels of `Files` are embedded as a scheduler-driven step
  function: a schedule is a list of choices, each naming the goroutine that runs
  its next statement or the channel the collector's `select` receives from.
-/

namespace GoTemplate

deriving instance DecidableEq for Except

/-! ## Byte strings -/

/-- A Go string: a sequence of bytes. -/
abbrev Bytes := List UInt8

/-- The bytes of an ASCII literal. -/
def ascii (s : String) : Bytes := s.toList.map (fun c => c.toNat.toUInt8)

/-- The path separator `/`. -/
abbrev sep : UInt8 := 47

/-- The byte `.`. -/
abbrev dot : UInt8 := 46

/-- The suffix `.tmpl`. -/
def tmplSuffix : Bytes := [46, 116, 109, 112, 108]

/-! ## `path/filepath` (Unix) -/

/-- The `..` case of `Clean` when it can backtrack: starting from `w`, already
decremented once, move `w` down while `w > dotdot` and `out[w]` is not a separator. -/
def backLoop (out : Bytes) (dotdot : Nat) : Nat → Nat
  | 0 => 0
  | w + 1 =>
    if dotdot < w + 1 ∧ out[w + 1]? ≠ some sep then backLoop out dotdot w else w + 1

/-- One `..` element of `Clean`: the new buffer and the new `dotdot`. -/
def cleanDotDot (rooted : Bool) (out : Bytes) (dotdot : Nat) : Bytes × Nat :=
  if dotdot < out.length then
    (out.take (backLoop out dotdot (out.length - 1)), dotdot)
  else if !rooted then
    let out1 := if 0 < out.length then out ++ [sep] else out
    (out1 ++ [dot, dot], (out1 ++ [dot, dot]).length)
  else
    (out, dotdot)

/-- The loops of `Clean`, reading the rest of the path; `out` is the buffer
written so far (`out.w` is its length). With `copying` set the inner loop is
running: it copies a real path element up to the next separator. -/
def cleanLoop (rooted : Bool) : Bool → Bytes → Bytes → Nat → Bytes
  | _, [], out, _ => out
  | true, c :: rest, out, dotdot =>
    if c = sep then cleanLoop rooted false rest out dotdot
    else cleanLoop rooted true rest (out ++ [c]) dotdot
  | false, c :: rest, out, dotdot =>
    if c = sep then
      -- empty path element
      cleanLoop rooted false rest out dotdot
    else if c = dot ∧ (rest = [] ∨ rest.head? = some sep) then
      -- . element
      cleanLoop rooted false rest out dotdot
    else
      match rest with
      | d :: rest2 =>
        if c = dot ∧ d = dot ∧ (rest2 = [] ∨ rest2.head? = some sep) then
          -- .. element: remove to last separator
          cleanLoop rooted false rest2 (cleanDotDot rooted out dotdot).1
            (cleanDotDot rooted out dotdot).2
        else
          -- real path element: add slash if needed, copy element
          cleanLoop rooted true (d :: rest2)
            ((if (rooted ∧ out.length ≠ 1) ∨ (¬ rooted ∧ out.length ≠ 0) then out ++ [sep]
              else out) ++ [c]) dotdot
      | [] =>
        (if (rooted ∧ out.length ≠ 1) ∨ (¬ rooted ∧ out.length ≠ 0) then out ++ [sep]
          else out) ++ [c]

/-- The function `filepath.Clean` (Unix). -/
def Clean (path : Bytes) : Bytes :=
  match path with
  | [] => [dot]
  | c :: rest =>
    let rooted : Bool := c = sep
    let out :=
      if rooted then cleanLoop true false rest [sep] 1 else cleanLoop false false (c :: rest) [] 0
    if out.length = 0 then [dot] else out

/-- The function `filepath.Dir` (Unix): `Clean` of the path up to and including its last
separator. -/
def Dir (path : Bytes) : Bytes :=
  Clean (path.reverse.dropWhile (fun c => c ≠ sep)).reverse

/-- The function `filepath.Base` (Unix). -/
def Base (path : Bytes) : Bytes :=
  if path = [] then [dot]
  else
    -- strip trailing slashes, then keep what follows the last separator
    let stripped := (path.reverse.dropWhile (fun c => c = sep))
    let last := (stripped.takeWhile (fun c => c ≠ sep)).reverse
    if last = [] then [sep] else last

/-- The loop of `filepath.Ext`, scanning from the end of the path. -/
def extLoop : Bytes → Bytes → Bytes
  | [], _ => []
  | c :: rest, acc =>
    if c = sep then [] else if c = dot then c :: acc else extLoop rest (c :: acc)

/-- The function `filepath.Ext` (Unix). -/
def Ext (path : Bytes) : Bytes := extLoop path.reverse []

/-- The call `strings.Join(elem, "/")`. -/
def joinSep : List Bytes → Bytes
  | [] => []
  | [e] => e
  | e :: es => e ++ sep :: joinSep es

/-- The function `filepath.Join` (Unix). -/
def Join : List Bytes → Bytes
  | [] => []
  | e :: es => if e = [] then Join es else Clean (joinSep (e :: es))

/-! ## `net/url` -/

/-- The `ishex` of `net/url`. -/
def ishex (c : UInt8) : Bool :=
  (48 ≤ c ∧ c ≤ 57) ∨ (97 ≤ c ∧ c ≤ 102) ∨ (65 ≤ c ∧ c ≤ 70)

/-- The `unhex` of `net/url`. -/
def unhex (c : UInt8) : UInt8 :=
  if 48 ≤ c ∧ c ≤ 57 then c - 48
  else if 97 ≤ c ∧ c ≤ 102 then c - 97 + 10
  else if 65 ≤ c ∧ c ≤ 70 then c - 65 + 10
  else 0

/-- First loop of `unescape`: every `%` must be followed by two hex digits.
Returns the offending text of an `EscapeError`, if any. -/
def escapeError : Bytes → Option Bytes
  | [] => none
  | c :: rest =>
    if c = 37 then
      match rest with
      | a :: b :: rest2 =>
        if ishex a ∧ ishex b then escapeError rest2 else some ((c :: rest).take 3)
      | _ => some ((c :: rest).take 3)
    else escapeError rest

/-- Second loop of `unescape` in query-component mode: `%XX` becomes the byte
`XX` and `+` becomes a space. -/
def unescapeLoop : Bytes → Bytes
  | [] => []
  | c :: rest =>
    if c = 37 then
      match rest with
      | a :: b :: rest2 => (unhex a <<< 4 ||| unhex b) :: unescapeLoop rest2
      | _ => []
    else if c = 43 then 32 :: unescapeLoop rest
    else c :: unescapeLoop rest

/-- The function `url.QueryUnescape`: the decoded string, or the text of the `EscapeError`. -/
def QueryUnescape (s : Bytes) : Except Bytes Bytes :=
  match escapeError s with
  | some bad => .error bad
  | none => .ok (unescapeLoop s)

/-! ## Data model -/

/-- A Go `error` value; `filepath.SkipDir` is the one `Walk` tells apart. -/
inductive GoError
  | skipDir
  | other (msg : Bytes)
  deriving DecidableEq, Inhabited

/-- How a call ends abnormally: it returns an error, or it panics
(a nil pointer is dereferenced). -/
inductive Fault
  | error (e : GoError)
  | panic
  deriving DecidableEq

/-- The type `descriptor.MessageOptions`, as far as the encoder looks at it. -/
structure MessageOptions where
  raw : Bytes
  deriving DecidableEq

/-- The type `gotemplate.GoTemplateOption`: the option blob of a message. -/
structure GoTemplateOption where
  raw : Bytes
  deriving DecidableEq

/-- The type `descriptor.DescriptorProto`: the fields `genAst` reads. -/
structure DescriptorProto where
  Name : Option Bytes
  Options : Option MessageOptions
  deriving DecidableEq

/-- The type `descriptor.ServiceDescriptorProto`. -/
structure ServiceDescriptorProto where
  Name : Option Bytes
  deriving DecidableEq

/-- The type `descriptor.EnumDescriptorProto`. -/
structure EnumDescriptorProto where
  Name : Option Bytes
  deriving DecidableEq

/-- The type `descriptor.FileDescriptorProto`: `MessageType` holds pointers, which may be nil. -/
structure FileDescriptorProto where
  Name : Option Bytes
  MessageType : List (Option DescriptorProto)
  Service : List ServiceDescriptorProto
  EnumType : List EnumDescriptorProto
  deriving DecidableEq

/-- A Go `map[string]V` as a list of bindings with distinct keys. -/
abbrev GoMap (V : Type) := List (Bytes × V)

/-- The assignment `m[k] = v`. -/
def GoMap.set {V : Type} (m : GoMap V) (k : Bytes) (v : V) : GoMap V :=
  (k, v) :: m.filter (fun kv => kv.1 ≠ k)

/-- The lookup `m[k]` with its `ok` flag. -/
def GoMap.get {V : Type} (m : GoMap V) (k : Bytes) : Option V :=
  (m.find? (fun kv => kv.1 = k)).map Prod.snd

/-- The key set of a map. -/
def GoMap.keys {V : Type} (m : GoMap V) : List Bytes := m.map Prod.fst

/-- The struct `GenericTemplateBasedEncoder`. -/
structure GenericTemplateBasedEncoder where
  templateDir : Bytes
  service : Option ServiceDescriptorProto
  file : FileDescriptorProto
  enum : List EnumDescriptorProto
  debug : Bool
  destinationDir : Bytes
  deriving DecidableEq

/-- The struct `Ast`. -/
structure Ast where
  BuildDate : Nat
  BuildHostname : Bytes
  BuildUser : Bytes
  GoPWD : Bytes
  PWD : Bytes
  Debug : Bool
  DestinationDir : Bytes
  File : FileDescriptorProto
  RawFilename : Bytes
  Filename : Bytes
  TemplateDir : Bytes
  Service : Option ServiceDescriptorProto
  Enum : List EnumDescriptorProto
  Options : GoMap GoTemplateOption
  Path : Bytes
  deriving DecidableEq

/-- A node of the file system as `filepath.Walk` sees it through `Lstat` and
`readDirNames`. -/
inductive FsNode
  | file
  | absent (err : Bytes)
  | dir (entries : List (Bytes × FsNode))
  | unreadable (err : Bytes)

/-- What the encoder takes from outside the repository: the operating system,
`text/template` with the helper functions, `proto.GetExtension` for the
extension `E_GoTemplateOption`, and `filepath.Rel` (its error is a message).
`Tmpl` is a parsed template. -/
structure World (Tmpl : Type) where
  hostname : Except GoError Bytes
  getwd : Except GoError Bytes
  getenv : Bytes → Bytes
  now : Nat
  rel : Bytes → Bytes → Except Bytes Bytes
  root : FsNode
  getExtension : MessageOptions → Option GoTemplateOption
  parse : Bytes → Except GoError Tmpl
  parseFiles : Bytes → Bytes → Except GoError Tmpl
  execute : Tmpl → Ast → Except GoError Bytes

/-- Effects on the helper library and the template engine, in program order. -/
inductive Event
  | initPathMap (file : FileDescriptorProto)
  | files (e : GenericTemplateBasedEncoder)
  deriving DecidableEq

/-! ## `encoder.go` -/

/-- The constructor `NewGenericServiceTemplateBasedEncoder`: the encoder and the call
`pgghelpers.InitPathMap(file)` it makes. -/
def NewGenericServiceTemplateBasedEncoder (templateDir : Bytes)
    (service : ServiceDescriptorProto) (file : FileDescriptorProto) (debug : Bool)
    (destinationDir : Bytes) : GenericTemplateBasedEncoder × List Event :=
  ({ service := some service, file := file, templateDir := templateDir, debug := debug,
     destinationDir := destinationDir, enum := file.EnumType },
   [Event.initPathMap file])

/-- The constructor `NewGenericTemplateBasedEncoder`: the encoder and the call
`pgghelpers.InitPathMap(file)` it makes. -/
def NewGenericTemplateBasedEncoder (templateDir : Bytes) (file : FileDescriptorProto)
    (debug : Bool) (destinationDir : Bytes) : GenericTemplateBasedEncoder × List Event :=
  ({ service := none, file := file, templateDir := templateDir, enum := file.EnumType,
     debug := debug, destinationDir := destinationDir },
   [Event.initPathMap file])

/-- What `filepath.Walk` hands to its callback: the `IsDir` of a non-nil `info`
with a nil `err`, or a non-nil `err` (then `info` may be nil). -/
inductive WalkArg
  | ok (isDir : Bool)
  | failed (info : Option Bool) (err : GoError)

/-- A `filepath.WalkFunc` closing over a state of type `σ`. -/
abbrev WalkFunc (σ : Type) := Bytes → WalkArg → σ → σ × Option GoError

/-- Whether `Lstat` reports a directory. -/
def FsNode.IsDir : FsNode → Bool
  | .dir _ => true
  | .unreadable _ => true
  | _ => false

mutual
/-- The `walk` of `path/filepath` at a node, and `Lstat` failing at it. -/
def walk {σ : Type} (walkFn : WalkFunc σ) : Bytes → FsNode → σ → σ × Option GoError
  | path, .file, st => walkFn path (.ok false) st
  | path, .absent err, st => walkFn path (.failed none (.other err)) st
  | path, .unreadable err, st => walkFn path (.failed (some true) (.other err)) st
  | path, .dir entries, st =>
    match walkFn path (.ok true) st with
    | (st1, some err1) => (st1, some err1)
    | (st1, none) => walkNames walkFn path entries st1
/-- The loop of `walk` over the names of a directory. -/
def walkNames {σ : Type} (walkFn : WalkFunc σ) :
    Bytes → List (Bytes × FsNode) → σ → σ × Option GoError
  | _, [], st => (st, none)
  | path, (name, node) :: rest, st =>
    match walk walkFn (Join [path, name]) node st with
    | (st1, none) => walkNames walkFn path rest st1
    | (st1, some err) =>
      match node with
      | .absent _ => if err ≠ .skipDir then (st1, some err) else walkNames walkFn path rest st1
      | _ =>
        if ¬ node.IsDir ∨ err ≠ .skipDir then (st1, some err)
        else walkNames walkFn path rest st1
end

/-- The function `filepath.Walk`. -/
def Walk {σ : Type} (root : Bytes) (node : FsNode) (walkFn : WalkFunc σ) (st : σ) :
    σ × Option GoError :=
  match walk walkFn root node st with
  | (st1, some .skipDir) => (st1, none)
  | r => r

/-- The closure `templates` passes to `filepath.Walk`; the state is `filenames`. -/
def templatesFn {Tmpl : Type} (w : World Tmpl) (e : GenericTemplateBasedEncoder) :
    WalkFunc (List Bytes) := fun path arg filenames =>
  match arg with
  | .failed _ err => (filenames, some err)
  | .ok isDir =>
    if isDir then (filenames, none)
    else if Ext path ≠ tmplSuffix then (filenames, none)
    else
      match w.rel e.templateDir path with
      | .error err => (filenames, some (.other err))
      | .ok rel => (filenames ++ [rel], none)

/-- The method `templates`: `filenames` and `err`. -/
def templates {Tmpl : Type} (w : World Tmpl) (e : GenericTemplateBasedEncoder) :
    List Bytes × Option GoError :=
  Walk e.templateDir w.root (templatesFn w e) []

mutual
/-- The paths of the non-directory files at or under a node that `Lstat` finds. -/
def filesUnder : Bytes → FsNode → List Bytes
  | path, .file => [path]
  | path, .dir entries => filesIn path entries
  | _, .absent _ => []
  | _, .unreadable _ => []
/-- The paths of the non-directory files under the entries of the directory `path`. -/
def filesIn : Bytes → List (Bytes × FsNode) → List Bytes
  | _, [] => []
  | path, (name, node) :: rest => filesUnder (Join [path, name]) node ++ filesIn path rest
end

mutual
/-- Every node at or under this one can be read: `Lstat` and `readDirNames` succeed. -/
def readable : FsNode → Bool
  | .file => true
  | .dir entries => readableAll entries
  | .absent _ => false
  | .unreadable _ => false
/-- Every entry of a directory can be read. -/
def readableAll : List (Bytes × FsNode) → Bool
  | [] => true
  | (_, node) :: rest => readable node && readableAll rest
end

/-- The loop of `genAst` filling the option map `gto`. -/
def optionLoop {Tmpl : Type} (w : World Tmpl) :
    List (Option DescriptorProto) → GoMap GoTemplateOption → Except Fault (GoMap GoTemplateOption)
  | [], gto => .ok gto
  | none :: rest, gto => optionLoop w rest gto
  | some v :: rest, gto =>
    match v.Options with
    | none => optionLoop w rest gto
    | some mo =>
      match w.getExtension mo with
      | none => optionLoop w rest gto
      | some i =>
        match v.Name with
        | none => .error .panic
        | some name => optionLoop w rest (gto.set name i)

/-- Lift a Go error return. -/
def liftErr {α : Type} : Except GoError α → Except Fault α
  | .ok a => .ok a
  | .error e => .error (.error e)

/-- The first part of `genAst`: prepare the ast passed to the template engine
(up to and including the `Ast` literal, whose `Filename` is empty). -/
def genAstContext {Tmpl : Type} (w : World Tmpl) (e : GenericTemplateBasedEncoder)
    (templateFilename : Bytes) : Except Fault Ast := do
  let hostname ← liftErr w.hostname
  let pwd ← liftErr w.getwd
  let goPwd ←
    if w.getenv (ascii "GOPATH") ≠ [] then do
      let r ← match w.rel (w.getenv (ascii "GOPATH") ++ ascii "/src") pwd with
        | .error err => Except.error (Fault.error (.other err))
        | .ok r => pure r
      pure (if ascii "../" <:+: r then [] else r)
    else pure []
  let gto ← optionLoop w e.file.MessageType []
  let name ← match e.file.Name with
    | none => Except.error Fault.panic
    | some n => pure n
  pure
    { BuildDate := w.now, BuildHostname := hostname, BuildUser := w.getenv (ascii "USER"),
      PWD := pwd, GoPWD := goPwd, Debug := false, File := e.file,
      TemplateDir := e.templateDir, DestinationDir := e.destinationDir,
      RawFilename := templateFilename, Filename := [], Service := e.service,
      Enum := e.enum, Options := gto, Path := Dir name }

/-- The method `genAst`: the context, then the template path evaluated as a
template against it. -/
def genAst {Tmpl : Type} (w : World Tmpl) (e : GenericTemplateBasedEncoder)
    (templateFilename : Bytes) : Except Fault Ast := do
  let ast ← genAstContext w e templateFilename
  let source :=
    match QueryUnescape templateFilename with
    | .error _ => templateFilename
    | .ok unescaped => unescaped
  let tmpl ← liftErr (w.parse source)
  let buffer ← liftErr (w.execute tmpl ast)
  pure { ast with Filename := buffer }

/-- The derived output path `s` of `buildContent`. -/
def derivedPath (fileName filename : Bytes) : Bytes :=
  Dir filename ++ ascii "/" ++ Base fileName ++ ascii "_" ++ Base filename

/-- The method `buildContent`: the content and the derived output path. -/
def buildContent {Tmpl : Type} (w : World Tmpl) (e : GenericTemplateBasedEncoder)
    (templateFilename : Bytes) : Except Fault (Bytes × Bytes) := do
  let fullPath := Join [e.templateDir, templateFilename]
  let templateName := Base fullPath
  let tmpl ← liftErr (w.parseFiles templateName fullPath)
  let ast ← genAst w e templateFilename
  let buffer ← liftErr (w.execute tmpl ast)
  let name ← match ast.File.Name with
    | none => Except.error Fault.panic
    | some n => pure n
  pure (buffer, derivedPath name ast.Filename)

/-- The type `plugin_go.CodeGeneratorResponse_File` with both pointers set. -/
structure ResponseFile where
  Name : Bytes
  Content : Bytes
  deriving DecidableEq

/-- Where a render goroutine of `Files` stands. -/
inductive TaskState
  /-- Started with `go`, `buildContent` has not returned yet. -/
  | launched
  /-- The assignment `content, translatedFilename, err = e.buildContent(tmpl)` is done. -/
  | built (content translatedFilename : Bytes)
  /-- The test `err != nil` held; the send `errChan <- err` is next. -/
  | failing
  /-- The goroutine has sent its outcome and returned. -/
  | done
  deriving DecidableEq

/-- The state of one call of `Files` after `templates` returned: the goroutines,
the variable `err` they share with the collector, the three channels, and the
collector's `i` and `files`. `panicked` is set once a goroutine or the collector
panics, which ends the process. -/
structure FilesState where
  tasks : List (Bytes × TaskState)
  err : Option GoError
  errChan : List (Option GoError)
  ignoreChan : List Bytes
  resultChan : List ResponseFile
  i : Nat
  files : List ResponseFile
  panicked : Bool
  deriving DecidableEq

/-- What the scheduler picks next: goroutine `k` runs up to its next access to
shared state, or the collector's `select` receives from one of the channels. -/
inductive Choice
  | run (k : Nat)
  | recvIgnore
  | recvResult
  | recvErr
  deriving DecidableEq

/-- The value `length := len(templates)`: the loop bound and the capacity of each channel. -/
def FilesState.length (s : FilesState) : Nat := s.tasks.length

/-- The state after the `for ... range templates` loop has started every goroutine. -/
def FilesState.init (templates : List Bytes) : FilesState :=
  { tasks := templates.map (fun t => (t, TaskState.launched)), err := none, errChan := [],
    ignoreChan := [], resultChan := [], i := 0, files := [], panicked := false }

/-- The next statements of the goroutine rendering `tmpl`, from state `ts`. -/
def runTask {Tmpl : Type} (w : World Tmpl) (e : GenericTemplateBasedEncoder)
    (s : FilesState) (k : Nat) (tmpl : Bytes) : TaskState → Option FilesState
  | .launched =>
    match buildContent w e tmpl with
    | .ok (content, translatedFilename) =>
      some { s with tasks := s.tasks.set k (tmpl, .built content translatedFilename),
                    err := none }
    | .error (.error err) =>
      some { s with tasks := s.tasks.set k (tmpl, .built [] []), err := some err }
    | .error .panic => some { s with panicked := true }
  | .built content translatedFilename =>
    if s.err ≠ none then some { s with tasks := s.tasks.set k (tmpl, .failing) }
    else if translatedFilename.length < tmplSuffix.length then
      -- slice bounds out of range
      some { s with panicked := true }
    else
      let filename := translatedFilename.take (translatedFilename.length - tmplSuffix.length)
      if content = [] then
        if s.ignoreChan.length < s.length then
          some { s with tasks := s.tasks.set k (tmpl, .done),
                        ignoreChan := s.ignoreChan ++ [[]] }
        else none
      else
        if s.resultChan.length < s.length then
          some { s with tasks := s.tasks.set k (tmpl, .done),
                        resultChan := s.resultChan ++ [{ Content := content, Name := filename }] }
        else none
  | .failing =>
    if s.errChan.length < s.length then
      some { s with tasks := s.tasks.set k (tmpl, .done), errChan := s.errChan ++ [s.err] }
    else none
  | .done => none

/-- One scheduling step of `Files`; `none` when the choice is not enabled
(the goroutine has returned or is blocked, the channel is empty, the collector
loop is over, or the process has panicked). -/
def FilesState.step {Tmpl : Type} (w : World Tmpl) (e : GenericTemplateBasedEncoder)
    (s : FilesState) : Choice → Option FilesState
  | .run k =>
    if s.panicked then none
    else
      match s.tasks[k]? with
      | none => none
      | some (tmpl, ts) => runTask w e s k tmpl ts
  | .recvIgnore =>
    if s.panicked ∨ ¬ s.i < s.length then none
    else
      match s.ignoreChan with
      | [] => none
      | _ :: rest => some { s with ignoreChan := rest, i := s.i + 1 }
  | .recvResult =>
    if s.panicked ∨ ¬ s.i < s.length then none
    else
      match s.resultChan with
      | [] => none
      | f :: rest => some { s with resultChan := rest, files := s.files ++ [f], i := s.i + 1 }
  | .recvErr =>
    if s.panicked ∨ ¬ s.i < s.length then none
    else
      match s.errChan with
      | [] => none
      | err :: rest => some { s with errChan := rest, err := err, panicked := true }

/-- Run a schedule; `none` when one of its choices is not enabled. -/
def FilesState.exec {Tmpl : Type} (w : World Tmpl) (e : GenericTemplateBasedEncoder) :
    FilesState → List Choice → Option FilesState
  | s, [] => some s
  | s, c :: cs =>
    match s.step w e c with
    | none => none
    | some s1 => s1.exec w e cs

/-- How a call of `Files` stands. -/
inductive FilesOutcome
  /-- The call of `log.Fatalf`: the walk of `templates` failed. -/
  | fatal (err : GoError)
  /-- A `panic` ended the process. -/
  | aborted
  /-- The collector loop is over: `return files`. -/
  | returned (files : List ResponseFile)
  /-- Goroutines or the collector still have statements to run. -/
  | running
  deriving DecidableEq

/-- The outcome a state of `Files` stands for. -/
def FilesState.outcome (s : FilesState) : FilesOutcome :=
  if s.panicked then .aborted
  else if s.i < s.length then .running
  else .returned s.files

/-- The method `Files` under a schedule of its goroutines and of the collector;
`none` when the schedule asks for a step that is not enabled. -/
def Files {Tmpl : Type} (w : World Tmpl) (e : GenericTemplateBasedEncoder)
    (sched : List Choice) : Option FilesOutcome :=
  match templates w e with
  | (_, some err) => some (.fatal err)
  | (tmpls, none) => ((FilesState.init tmpls).exec w e sched).map FilesState.outcome

/-! ## `main.go`: the merge of the rendered files -/

/-- The part of the program state the closure `concatOrAppend` works on. A
`*plugin_go.CodeGeneratorResponse_File` is an index into `heap`; `tmplMap` and
`File` (the `g.Response.File` slice) hold such pointers. -/
structure MergeState where
  heap : List ResponseFile
  tmplMap : GoMap Nat
  File : List Nat
  deriving DecidableEq

/-- The closure `concatOrAppend` applied to the pointer `file`. -/
def concatOrAppend (st : MergeState) (file : Nat) : MergeState :=
  match st.heap[file]? with
  | none => st
  | some f =>
    match st.tmplMap.get f.Name with
    | some val =>
      match st.heap[val]? with
      | none => st
      | some v => { st with heap := st.heap.set val { v with Content := v.Content ++ f.Content } }
    | none => { st with tmplMap := st.tmplMap.set f.Name file, File := st.File ++ [file] }

/-- The loop `for _, tmpl := range encoder.Files() { concatOrAppend(tmpl) }`: the
files a pass returned are fresh objects, merged in the order of the returned slice. -/
def mergeFiles (st : MergeState) (files : List ResponseFile) : MergeState :=
  (List.range' st.heap.length files.length).foldl concatOrAppend
    { st with heap := st.heap ++ files }

/-- The response entries `g.Response.File` points to. -/
def MergeState.emitted (st : MergeState) : List ResponseFile :=
  st.File.filterMap (fun p => st.heap[p]?)

/-- The state before the encoder loop: `tmplMap` and the response are empty. -/
def MergeState.empty : MergeState := { heap := [], tmplMap := [], File := [] }

/-- The state of the encoder loop of `main`: the number of passes made, the
effects so far, the merge state, and whether a pass ended the process. -/
structure MainState where
  pass : Nat
  events : List Event
  merge : MergeState
  aborted : Bool

/-- One pass: an encoder is constructed, its `Files` is called and the files it
returns are merged. `filesOf` stands for the outcome of that call of `Files`
(`none` when it ends the process). -/
def runPass (filesOf : Nat → GenericTemplateBasedEncoder → Option (List ResponseFile))
    (ms : MainState) (enc : GenericTemplateBasedEncoder × List Event) : MainState :=
  if ms.aborted then ms
  else
    match filesOf ms.pass enc.1 with
    | none =>
      { ms with events := ms.events ++ enc.2 ++ [Event.files enc.1], aborted := true }
    | some files =>
      { ms with pass := ms.pass + 1,
                events := ms.events ++ enc.2 ++ [Event.files enc.1],
                merge := mergeFiles ms.merge files }

/-- The encoder loop of `main` over `g.Request.GetProtoFile()`. -/
def mainLoop (templateDir destinationDir : Bytes) (debug all : Bool)
    (filesOf : Nat → GenericTemplateBasedEncoder → Option (List ResponseFile))
    (protoFiles : List FileDescriptorProto) : MainState :=
  protoFiles.foldl
    (fun ms file =>
      if all then
        runPass filesOf ms (NewGenericTemplateBasedEncoder templateDir file debug destinationDir)
      else
        file.Service.foldl
          (fun ms service =>
            runPass filesOf ms
              (NewGenericServiceTemplateBasedEncoder templateDir service file debug
                destinationDir))
          ms)
    { pass := 0, events := [], merge := MergeState.empty, aborted := false }

/-- The encoders the loop of `main` constructs, in order, each with the effects
of its constructor. -/
def encoders (templateDir destinationDir : Bytes) (debug all : Bool)
    (protoFiles : List FileDescriptorProto) : List (GenericTemplateBasedEncoder × List Event) :=
  protoFiles.flatMap (fun file =>
    if all then [NewGenericTemplateBasedEncoder templateDir file debug destinationDir]
    else file.Service.map (fun service =>
      NewGenericServiceTemplateBasedEncoder templateDir service file debug destinationDir))

/-- The files `pgghelpers.InitPathMap` was called on, in order. -/
def initCalls : List Event → List FileDescriptorProto
  | [] => []
  | .initPathMap file :: rest => file :: initCalls rest
  | .files _ :: rest => initCalls rest

/-! ## A small concrete world

Templates without actions: parsing keeps the text and executing gives it back.
The template directory `t` holds `foo.go.tmpl`, `empty.tmpl`, `notes.txt` and
the directory `sub.tmpl` with `bar.tmpl` and `README` in it. -/

/-- The template directory of `demoWorld`. -/
def demoRoot : FsNode :=
  .dir [(ascii "empty.tmpl", .file), (ascii "foo.go.tmpl", .file), (ascii "notes.txt", .file),
        (ascii "sub.tmpl", .dir [(ascii "README", .file), (ascii "bar.tmpl", .file)])]

/-- A world whose template files hold their own path as text, except
`t/empty.tmpl`, which is empty; `rel` strips the directory and one separator. -/
def demoWorld : World Bytes :=
  { hostname := .ok (ascii "host"), getwd := .ok (ascii "/work"), getenv := fun _ => [],
    now := 0, rel := fun base targ => .ok (targ.drop (base.length + 1)), root := demoRoot,
    getExtension := fun mo => if mo.raw = [] then none else some { raw := mo.raw },
    parse := fun text => .ok text,
    parseFiles := fun _ path => .ok (if path = ascii "t/empty.tmpl" then [] else path),
    execute := fun tmpl _ => .ok tmpl }

/-- The schema file `a/svc.proto`: message `Foo` carries the option, `Bar` has
options without it, `Baz` has no options. -/
def demoFile : FileDescriptorProto :=
  { Name := some (ascii "a/svc.proto"),
    MessageType :=
      [some { Name := some (ascii "Foo"), Options := some { raw := ascii "opt" } },
       some { Name := some (ascii "Bar"), Options := some { raw := [] } },
       none,
       some { Name := some (ascii "Baz"), Options := none }],
    Service := [{ Name := some (ascii "S1") }, { Name := some (ascii "S2") }],
    EnumType := [] }

/-- A schema file that declares no service. -/
def lonelyFile : FileDescriptorProto :=
  { Name := some (ascii "b/types.proto"), MessageType := [], Service := [], EnumType := [] }

/-- The context `genAst` builds for `foo.go.tmpl` in the demo world. -/
def demoAst : Ast :=
  { BuildDate := 0, BuildHostname := ascii "host", BuildUser := [], GoPWD := [],
    PWD := ascii "/work", Debug := false, DestinationDir := ascii ".", File := demoFile,
    RawFilename := ascii "foo.go.tmpl", Filename := ascii "foo.go.tmpl",
    TemplateDir := ascii "t", Service := none, Enum := [],
    Options := [(ascii "Foo", { raw := ascii "opt" })], Path := ascii "a" }

/-- The whole-file encoder of `demoFile` over the directory `t`. -/
def demoEncoder : GenericTemplateBasedEncoder :=
  (NewGenericTemplateBasedEncoder (ascii "t") demoFile false (ascii ".")).1

/-- The state of `Files` in the demo world after the three goroutines have
returned and the collector has consumed their outcomes, `bar` before `foo`. -/
def demoFinal : FilesState :=
  { tasks := [(ascii "empty.tmpl", .done), (ascii "foo.go.tmpl", .done),
              (ascii "sub.tmpl/bar.tmpl", .done)],
    err := none, errChan := [], ignoreChan := [], resultChan := [], i := 3,
    files := [{ Name := ascii "sub.tmpl/svc.proto_bar", Content := ascii "t/sub.tmpl/bar.tmpl" },
              { Name := ascii "./svc.proto_foo.go", Content := ascii "t/foo.go.tmpl" }],
    panicked := false }

/-- The demo world with a malformed `t/foo.go.tmpl`: parsing it fails. -/
def brokenWorld : World Bytes :=
  { demoWorld with
    parseFiles := fun name path =>
      if path = ascii "t/foo.go.tmpl" then .error (.other (ascii "bad template"))
      else demoWorld.parseFiles name path }

/-- The state of `Files` in the broken world after the goroutine of
`foo.go.tmpl` has stored its error in `err` and the goroutine of `empty.tmpl`
has then overwritten `err` with nil. -/
def demoRaced : FilesState :=
  { tasks := [(ascii "empty.tmpl", .built [] (ascii "./svc.proto_empty.tmpl")),
              (ascii "foo.go.tmpl", .built [] []),
              (ascii "sub.tmpl/bar.tmpl", .launched)],
    err := none, errChan := [], ignoreChan := [], resultChan := [], i := 0, files := [],
    panicked := false }

/-! ## The percent-decoding the specification speaks of

A second definition of decoding, written from the words of the specification
and not from `net/url`, to compare `QueryUnescape` with. -/

/-- The value of a hexadecimal digit: its position among the sixteen digits,
in lower or in upper case. -/
def specHexValue (c : UInt8) : Option Nat :=
  match (ascii "0123456789abcdef").indexOf? c with
  | some v => some v
  | none => (ascii "0123456789ABCDEF").indexOf? c

/-- Percent-decoding: every `%` followed by two hexadecimal digits stands for
the byte with that value, every other byte stands for itself; a `%` that is not
followed by two hexadecimal digits makes the decoding fail. -/
def specPercentDecode : Bytes → Option Bytes
  | [] => some []
  | c :: rest =>
    if c = 37 then
      match rest with
      | a :: b :: rest2 =>
        match specHexValue a, specHexValue b, specPercentDecode rest2 with
        | some hi, some lo, some tail => some ((16 * hi + lo).toUInt8 :: tail)
        | _, _, _ => none
      | _ => none
    else (specPercentDecode rest).map (fun tail => c :: tail)

/-- The byte `+` turned into a space, every other byte kept. -/
def plusToSpace (c : UInt8) : UInt8 := if c = 43 then 32 else c

/-! ## The option map -/

/-- Message `v` is named `k` and carries the extension with blob `i`:
`proto.GetExtension` on its options returns `i`. -/
def carries {Tmpl : Type} (w : World Tmpl) (v : DescriptorProto) (k : Bytes)
    (i : GoTemplateOption) : Prop :=
  v.Name = some k ∧ v.Options.bind w.getExtension = some i

/-! ## The template locator -/

/-- The filter of the locator: the extension of the path is `.tmpl`. -/
def isTmpl (path : Bytes) : Bool := Ext path = tmplSuffix

/-! ## The merge -/

/-- The merge on the list of response entries: the content of `f` is appended
to the entry of the same name, or `f` becomes a new last entry. -/
def regList (l : List ResponseFile) (f : ResponseFile) : List ResponseFile :=
  if f.Name ∈ l.map (fun g => g.Name) then
    l.map (fun g => if g.Name = f.Name then { g with Content := g.Content ++ f.Content } else g)
  else l ++ [f]

/-- The name of the object a pointer refers to. -/
def MergeState.nameAt (st : MergeState) (q : Nat) : Option Bytes :=
  (st.heap[q]?).map (fun g => g.Name)

/-- The merge state `st` stands for the list `l` of response entries: the
response slice points to the entries of `l`, under distinct names, and `tmplMap`
maps exactly those names to those pointers. -/
structure Sim (st : MergeState) (l : List ResponseFile) : Prop where
  emitted : st.File.map (fun q => st.heap[q]?) = l.map some
  nodup : (st.File.map st.nameAt).Nodup
  found : ∀ name val, st.tmplMap.get name = some val →
    val ∈ st.File ∧ st.nameAt val = some name
  missing : ∀ name, st.tmplMap.get name = none → name ∉ l.map (fun g => g.Name)

/-- The concatenation of the contents registered under `name`, in order. -/
def contentsOf (fs : List ResponseFile) (name : Bytes) : Bytes :=
  ((fs.filter (fun f => f.Name = name)).map (fun f => f.Content)).flatten

/-- The position in `fs` of the first file registered under `name`
(`fs.length` when there is none). -/
def firstIndex (name : Bytes) : List ResponseFile → Nat
  | [] => 0
  | f :: fs => if f.Name = name then 0 else firstIndex name fs + 1

/-! ## The concurrent fan-out and fan-in -/

/-- The transitions of `FilesState.step`, one constructor per branch. -/
inductive Transition {Tmpl : Type} (w : World Tmpl) (e : GenericTemplateBasedEncoder) :
    FilesState → FilesState → Prop
  | buildOk (s : FilesState) (k : Nat) (t c tf : Bytes) :
      s.panicked = false → s.tasks[k]? = some (t, .launched) →
      buildContent w e t = .ok (c, tf) →
      Transition w e s { s with tasks := s.tasks.set k (t, .built c tf), err := none }
  | buildErr (s : FilesState) (k : Nat) (t : Bytes) (err : GoError) :
      s.panicked = false → s.tasks[k]? = some (t, .launched) →
      buildContent w e t = .error (.error err) →
      Transition w e s { s with tasks := s.tasks.set k (t, .built [] []), err := some err }
  | buildPanic (s : FilesState) (k : Nat) (t : Bytes) :
      s.panicked = false → s.tasks[k]? = some (t, .launched) →
      buildContent w e t = .error .panic →
      Transition w e s { s with panicked := true }
  | seeErr (s : FilesState) (k : Nat) (t c tf : Bytes) :
      s.panicked = false → s.tasks[k]? = some (t, .built c tf) → s.err ≠ none →
      Transition w e s { s with tasks := s.tasks.set k (t, .failing) }
  | slicePanic (s : FilesState) (k : Nat) (t c tf : Bytes) :
      s.panicked = false → s.tasks[k]? = some (t, .built c tf) → s.err = none →
      tf.length < tmplSuffix.length →
      Transition w e s { s with panicked := true }
  | sendIgnore (s : FilesState) (k : Nat) (t tf : Bytes) :
      s.panicked = false → s.tasks[k]? = some (t, .built [] tf) → s.err = none →
      tmplSuffix.length ≤ tf.length → s.ignoreChan.length < s.length →
      Transition w e s
        { s with tasks := s.tasks.set k (t, .done), ignoreChan := s.ignoreChan ++ [[]] }
  | sendResult (s : FilesState) (k : Nat) (t c tf : Bytes) :
      s.panicked = false → s.tasks[k]? = some (t, .built c tf) → s.err = none →
      tmplSuffix.length ≤ tf.length → c ≠ [] → s.resultChan.length < s.length →
      Transition w e s
        { s with tasks := s.tasks.set k (t, .done),
                 resultChan := s.resultChan ++
                   [{ Content := c, Name := tf.take (tf.length - tmplSuffix.length) }] }
  | sendErr (s : FilesState) (k : Nat) (t : Bytes) :
      s.panicked = false → s.tasks[k]? = some (t, .failing) →
      s.errChan.length < s.length →
      Transition w e s
        { s with tasks := s.tasks.set k (t, .done), errChan := s.errChan ++ [s.err] }
  | recvIgnore (s : FilesState) (x : Bytes) (rest : List Bytes) :
      s.panicked = false → s.i < s.length → s.ignoreChan = x :: rest →
      Transition w e s { s with ignoreChan := rest, i := s.i + 1 }
  | recvResult (s : FilesState) (f : ResponseFile) (rest : List ResponseFile) :
      s.panicked = false → s.i < s.length → s.resultChan = f :: rest →
      Transition w e s { s with resultChan := rest, files := s.files ++ [f], i := s.i + 1 }
  | recvErr (s : FilesState) (err : Option GoError) (rest : List (Option GoError)) :
      s.panicked = false → s.i < s.length → s.errChan = err :: rest →
      Transition w e s { s with errChan := rest, err := err, panicked := true }

/-- Whether `buildContent` returns an error for the template. -/
def failedRender {Tmpl : Type} (w : World Tmpl) (e : GenericTemplateBasedEncoder)
    (t : Bytes) : Bool :=
  match buildContent w e t with
  | .error (.error _) => true
  | _ => false

/-- The number of goroutines that have sent their outcome. -/
def doneCount (tasks : List (Bytes × TaskState)) : Nat :=
  (tasks.map (fun t => if t.2 = .done then 1 else 0)).sum

/-- The number of goroutines that have sent their outcome after a failed render. -/
def failDone {Tmpl : Type} (w : World Tmpl) (e : GenericTemplateBasedEncoder)
    (tasks : List (Bytes × TaskState)) : Nat :=
  (tasks.map (fun t => if t.2 = .done ∧ failedRender w e t.1 = true then 1 else 0)).sum

/-- The statements a goroutine still has to run, counted by access to shared state. -/
def TaskState.weight : TaskState → Nat
  | .launched => 3
  | .built _ _ => 2
  | .failing => 1
  | .done => 0

/-- A bound on the number of steps left. -/
def FilesState.fuel (s : FilesState) : Nat :=
  (s.tasks.map (fun t => t.2.weight)).sum + (s.length - s.i) + (if s.panicked then 0 else 1)

/-- The response file a render outcome stands for: none for an error or for
empty content. -/
def fileOf : Except Fault (Bytes × Bytes) → List ResponseFile
  | .ok (c, tf) =>
    if c = [] then [] else [{ Content := c, Name := tf.take (tf.length - tmplSuffix.length) }]
  | .error _ => []

/-- The file a goroutine that has not sent yet is going to send. -/
def pendingOf {Tmpl : Type} (w : World Tmpl) (e : GenericTemplateBasedEncoder)
    (t : Bytes × TaskState) : List ResponseFile :=
  if t.2 = .done then [] else fileOf (buildContent w e t.1)

/-- One entry for each template whose rendered content is not empty. -/
def expectedFiles {Tmpl : Type} (w : World Tmpl) (e : GenericTemplateBasedEncoder)
    (tmpls : List Bytes) : List ResponseFile :=
  tmpls.flatMap (fun t => fileOf (buildContent w e t))

/-- The number of templates that render to the empty string. -/
def emptyRenders {Tmpl : Type} (w : World Tmpl) (e : GenericTemplateBasedEncoder)
    (tmpls : List Bytes) : Nat :=
  (tmpls.filter (fun t => match buildContent w e t with
    | .ok (c, _) => c = []
    | .error _ => false)).length

/-- What holds in every state a schedule of `Files` reaches: the goroutines
are those of the templates; while no panic has occurred, each goroutine that
returned has one outcome queued or consumed, and each one that returned after a
failed render has its outcome in `errChan`; the locals of a goroutine hold what
`buildContent` returned. -/
structure Inv {Tmpl : Type} (w : World Tmpl) (e : GenericTemplateBasedEncoder)
    (tmpls : List Bytes) (s : FilesState) : Prop where
  names : s.tasks.map Prod.fst = tmpls
  count : s.panicked = false →
    doneCount s.tasks = s.i + s.errChan.length + s.ignoreChan.length + s.resultChan.length
  locals : ∀ (k : Nat) (t c tf : Bytes), s.tasks[k]? = some (t, TaskState.built c tf) →
    buildContent w e t = .ok (c, tf) ∨ (failedRender w e t = true ∧ tf = [])
  failed : s.panicked = false → failDone w e s.tasks ≤ s.errChan.length

/-- What holds in addition when every render succeeds: no panic, `err` stays
nil, nothing is sent to `errChan`, and the files collected, queued or still to be
sent are together the expected files. -/
structure Good {Tmpl : Type} (w : World Tmpl) (e : GenericTemplateBasedEncoder)
    (tmpls : List Bytes) (s : FilesState) : Prop where
  calm : s.panicked = false
  noErr : s.err = none
  noErrSent : s.errChan = []
  noFailing : ∀ (k : Nat) (t : Bytes), s.tasks[k]? ≠ some (t, TaskState.failing)
  perm : (s.files ++ s.resultChan ++ s.tasks.flatMap (pendingOf w e)).Perm
    (expectedFiles w e tmpls)

/-! # Theorems -/

/-! ## Paths: the derived output path -/

theorem Clean_length_pos (path : Bytes) : 1 ≤ (Clean path).length := by
  unfold Clean
  cases path with
  | nil => simp
  | cons c rest =>
    simp only []
    split_ifs <;> first | simp | omega

theorem Dir_length_pos (path : Bytes) : 1 ≤ (Dir path).length :=
  Clean_length_pos _

theorem Base_length_pos (path : Bytes) : 1 ≤ (Base path).length := by
  unfold Base
  simp only []
  split_ifs with h1 h2
  · simp
  · simp
  · exact List.length_pos.mpr h2

theorem derivedPath_length (fileName filename : Bytes) :
    (derivedPath fileName filename).length =
      (Dir filename).length + (Base fileName).length + (Base filename).length + 2 := by
  simp [derivedPath, ascii]
  omega

theorem Base_append_tmplSuffix (x : Bytes) :
    Base (x ++ tmplSuffix) = (x.reverse.takeWhile (fun c => c ≠ sep)).reverse ++ tmplSuffix := by
  unfold Base
  have h1 : x ++ tmplSuffix ≠ [] := by simp [tmplSuffix]
  have h2 : (x ++ tmplSuffix).reverse = 108 :: 112 :: 109 :: 116 :: 46 :: x.reverse := by
    simp [tmplSuffix]
  simp only [h1, if_false, h2]
  have h3 : List.dropWhile (fun c => decide (c = sep)) (108 :: 112 :: 109 :: 116 :: 46 :: x.reverse)
      = 108 :: 112 :: 109 :: 116 :: 46 :: x.reverse := by
    rw [List.dropWhile_cons_of_neg (by decide)]
  rw [h3]
  have h4 : List.takeWhile (fun c => decide (c ≠ sep)) (108 :: 112 :: 109 :: 116 :: 46 :: x.reverse)
      = 108 :: 112 :: 109 :: 116 :: 46 :: x.reverse.takeWhile (fun c => decide (c ≠ sep)) := by
    rw [List.takeWhile_cons_of_pos (by decide), List.takeWhile_cons_of_pos (by decide),
      List.takeWhile_cons_of_pos (by decide), List.takeWhile_cons_of_pos (by decide),
      List.takeWhile_cons_of_pos (by decide)]
  rw [h4]
  simp [tmplSuffix]

/-- What a successful `buildContent` returns: the rendered buffer, and the
derived path of the context `genAst` built. -/
theorem buildContent_ok {Tmpl : Type} (w : World Tmpl) (e : GenericTemplateBasedEncoder)
    (tmpl content tf : Bytes) (h : buildContent w e tmpl = .ok (content, tf)) :
    ∃ ast name, genAst w e tmpl = .ok ast ∧ ast.File.Name = some name ∧
      tf = derivedPath name ast.Filename := by
  unfold buildContent at h
  simp only [bind, Except.bind, pure, Except.pure] at h
  split at h
  · exact absurd h (by simp)
  · split at h
    · exact absurd h (by simp)
    · rename_i ast hast
      split at h
      · exact absurd h (by simp)
      · split at h
        · exact absurd h (by simp)
        · rename_i name hname
          refine ⟨ast, name, hast, hname, ?_⟩
          simp only [Except.ok.injEq, Prod.mk.injEq] at h
          exact h.2.symm

/-- C10: the derived output path of any schema file name and any resolved
Filename has at least `len(".tmpl") = 5` bytes, so after a successful
`buildContent` the slice `translatedFilename[:len(translatedFilename)-len(".tmpl")]`
of the render task is within bounds: with `err` nil the task does not panic. -/
theorem derivedPath_slice_in_bounds {Tmpl : Type} (w : World Tmpl)
    (e : GenericTemplateBasedEncoder) (fileName filename tmpl content tf : Bytes)
    (h : buildContent w e tmpl = .ok (content, tf)) :
    tmplSuffix.length = 5 ∧ 5 ≤ (derivedPath fileName filename).length ∧ 5 ≤ tf.length ∧
      ∀ (s s1 : FilesState) (k : Nat), s.err = none →
        runTask w e s k tmpl (.built content tf) = some s1 → s1.panicked = s.panicked := by
  have hlen : ∀ a b : Bytes, 5 ≤ (derivedPath a b).length := by
    intro a b
    have h1 := Dir_length_pos b
    have h2 := Base_length_pos a
    have h3 := Base_length_pos b
    rw [derivedPath_length]
    omega
  obtain ⟨ast, name, _, _, htf⟩ := buildContent_ok w e tmpl content tf h
  have h5 : 5 ≤ tf.length := htf ▸ hlen name ast.Filename
  refine ⟨rfl, hlen _ _, h5, ?_⟩
  intro s s1 k herr hrun
  have hs : tmplSuffix.length = 5 := rfl
  unfold runTask at hrun
  simp only [herr, ne_eq, not_true_eq_false, if_false, hs] at hrun
  rw [if_neg (by omega)] at hrun
  split_ifs at hrun <;> simp only [Option.some.injEq] at hrun <;> rw [← hrun]

/-- C10 at `foo.go.tmpl` of the demo world. -/
theorem derivedPath_slice_in_bounds_witness :
    buildContent demoWorld demoEncoder (ascii "foo.go.tmpl")
        = .ok (ascii "t/foo.go.tmpl", ascii "./svc.proto_foo.go.tmpl") ∧
      5 ≤ (derivedPath [] []).length ∧ 5 ≤ (ascii "./svc.proto_foo.go.tmpl").length :=
  ⟨by decide,
   (derivedPath_slice_in_bounds demoWorld demoEncoder [] [] (ascii "foo.go.tmpl")
      (ascii "t/foo.go.tmpl") (ascii "./svc.proto_foo.go.tmpl") (by decide)).2.1,
   (derivedPath_slice_in_bounds demoWorld demoEncoder [] [] (ascii "foo.go.tmpl")
      (ascii "t/foo.go.tmpl") (ascii "./svc.proto_foo.go.tmpl") (by decide)).2.2.1⟩

/-- C9: when a template renders non-empty content and its resolved Filename
ends with `.tmpl`, the render task sends a file whose name is the derived
output path without its trailing `.tmpl`: appending `.tmpl` to the name gives
the derived path back, and the name is `Dir(Filename) + "/" + Base(schema file)
+ "_" + Base(Filename)` with the `.tmpl` ending of `Base(Filename)` removed. -/
theorem emitted_name_strips_tmpl {Tmpl : Type} (w : World Tmpl)
    (e : GenericTemplateBasedEncoder) (tmpl content tf x : Bytes) (ast : Ast)
    (s : FilesState) (k : Nat)
    (hb : buildContent w e tmpl = .ok (content, tf))
    (hg : genAst w e tmpl = .ok ast)
    (hc : content ≠ [])
    (hx : ast.Filename = x ++ tmplSuffix)
    (herr : s.err = none) (hcap : s.resultChan.length < s.length) :
    ∃ (f : ResponseFile) (name : Bytes), ast.File.Name = some name ∧
      runTask w e s k tmpl (.built content tf)
        = some { s with tasks := s.tasks.set k (tmpl, .done),
                        resultChan := s.resultChan ++ [f] } ∧
      f.Content = content ∧
      tf = derivedPath name ast.Filename ∧
      f.Name ++ tmplSuffix = tf ∧
      f.Name = Dir ast.Filename ++ ascii "/" ++ Base name ++ ascii "_" ++
        (Base ast.Filename).take ((Base ast.Filename).length - tmplSuffix.length) := by
  obtain ⟨ast1, name, hg1, hname, htf⟩ := buildContent_ok w e tmpl content tf hb
  rw [hg] at hg1
  cases hg1
  have hbase := Base_append_tmplSuffix x
  have hs : tmplSuffix.length = 5 := rfl
  have htf2 : tf = (Dir ast.Filename ++ ascii "/" ++ Base name ++ ascii "_" ++
      (x.reverse.takeWhile (fun c => c ≠ sep)).reverse) ++ tmplSuffix := by
    rw [htf, derivedPath, hx, hbase]
    simp
  have htake : tf.take (tf.length - tmplSuffix.length) =
      Dir ast.Filename ++ ascii "/" ++ Base name ++ ascii "_" ++
        (x.reverse.takeWhile (fun c => c ≠ sep)).reverse := by
    rw [htf2, List.length_append, Nat.add_sub_cancel, List.take_left']
    rfl
  refine ⟨{ Content := content, Name := tf.take (tf.length - tmplSuffix.length) }, name,
    hname, ?_, rfl, htf, ?_, ?_⟩
  · unfold runTask
    have h5 : ¬ tf.length < tmplSuffix.length := by
      rw [htf2, List.length_append]
      omega
    simp only [herr, ne_eq, not_true_eq_false, if_false, h5, hc, hcap, if_true]
  · simp only [htake]
    exact htf2.symm
  · simp only [htake]
    rw [hx, hbase, List.length_append, Nat.add_sub_cancel, List.take_left']
    rfl

/-- C9 at `foo.go.tmpl` of the demo world: the file sent is named
`./svc.proto_foo.go`. -/
theorem emitted_name_strips_tmpl_witness :
    genAst demoWorld demoEncoder (ascii "foo.go.tmpl") = .ok demoAst ∧
    ∃ (f : ResponseFile) (name : Bytes), demoAst.File.Name = some name ∧
      runTask demoWorld demoEncoder (FilesState.init [ascii "foo.go.tmpl"]) 0
          (ascii "foo.go.tmpl") (.built (ascii "t/foo.go.tmpl") (ascii "./svc.proto_foo.go.tmpl"))
        = some { FilesState.init [ascii "foo.go.tmpl"] with
                  tasks := (FilesState.init [ascii "foo.go.tmpl"]).tasks.set 0
                    (ascii "foo.go.tmpl", .done),
                  resultChan := (FilesState.init [ascii "foo.go.tmpl"]).resultChan ++ [f] } ∧
      f.Content = ascii "t/foo.go.tmpl" ∧
      ascii "./svc.proto_foo.go.tmpl" = derivedPath name demoAst.Filename ∧
      f.Name ++ tmplSuffix = ascii "./svc.proto_foo.go.tmpl" ∧
      f.Name = Dir demoAst.Filename ++ ascii "/" ++ Base name ++ ascii "_" ++
        (Base demoAst.Filename).take ((Base demoAst.Filename).length - tmplSuffix.length) :=
  ⟨by decide,
   emitted_name_strips_tmpl demoWorld demoEncoder (ascii "foo.go.tmpl")
    (ascii "t/foo.go.tmpl") (ascii "./svc.proto_foo.go.tmpl") (ascii "foo.go") demoAst
    (FilesState.init [ascii "foo.go.tmpl"]) 0 (by decide) (by decide) (by decide) (by decide)
    (by decide) (by decide)⟩

/-! ## The context and the resolved filename -/

theorem liftErr_ok {α : Type} (x : Except GoError α) (a : α) :
    liftErr x = .ok a ↔ x = .ok a := by
  cases x <;> simp [liftErr]

/-- The fields of a context `genAstContext` returns. -/
theorem genAstContext_ok {Tmpl : Type} (w : World Tmpl) (e : GenericTemplateBasedEncoder)
    (p : Bytes) (ctx : Ast) (h : genAstContext w e p = .ok ctx) :
    ctx.Filename = [] ∧ ctx.RawFilename = p ∧ ctx.File = e.file ∧
      optionLoop w e.file.MessageType [] = .ok ctx.Options := by
  unfold genAstContext at h
  simp only [bind, Except.bind, pure, Except.pure] at h
  repeat' split at h
  all_goals (cases h <;> simp_all)

/-- When `genAst` succeeds: the context was built, the source text parsed and
executed against that context, and the output stored in `Filename`. -/
theorem genAst_ok_iff {Tmpl : Type} (w : World Tmpl) (e : GenericTemplateBasedEncoder)
    (p : Bytes) (ast : Ast) :
    genAst w e p = .ok ast ↔
      ∃ ctx t out, genAstContext w e p = .ok ctx ∧
        w.parse (match QueryUnescape p with
                  | .error _ => p
                  | .ok unescaped => unescaped) = .ok t ∧
        w.execute t ctx = .ok out ∧ ast = { ctx with Filename := out } := by
  unfold genAst
  simp only [bind, Except.bind, pure, Except.pure]
  constructor
  · intro h
    split at h
    · exact absurd h (by simp)
    · rename_i ctx hctx
      split at h
      · exact absurd h (by simp)
      · rename_i t ht
        split at h
        · exact absurd h (by simp)
        · rename_i out hout
          simp only [Except.ok.injEq] at h
          exact ⟨ctx, t, out, hctx, (liftErr_ok _ _).mp ht, (liftErr_ok _ _).mp hout, h.symm⟩
  · rintro ⟨ctx, t, out, hctx, ht, hout, rfl⟩
    simp only [hctx]
    rw [(liftErr_ok _ _).mpr ht]
    simp only []
    rw [(liftErr_ok _ _).mpr hout]

theorem Join_pair (a b : Bytes) (h : a ≠ []) : Join [a, b] = Clean (a ++ sep :: b) := by
  simp [Join, h, joinSep]

/-- C2 (as stated, refuted): for the schema file `a/svc.proto` and the resolved
Filename `foo.go.tmpl`, `buildContent` returns the derived path
`./svc.proto_foo.go.tmpl`, while the path join of `Dir(Filename)` with
`svc.proto_foo.go.tmpl` is `svc.proto_foo.go.tmpl`. -/
theorem derivedPath_is_not_the_join :
    genAst demoWorld demoEncoder (ascii "foo.go.tmpl") = .ok demoAst ∧
    demoAst.Filename = ascii "foo.go.tmpl" ∧
    demoEncoder.file.Name = some (ascii "a/svc.proto") ∧
    buildContent demoWorld demoEncoder (ascii "foo.go.tmpl")
      = .ok (ascii "t/foo.go.tmpl", ascii "./svc.proto_foo.go.tmpl") ∧
    Join [Dir (ascii "foo.go.tmpl"),
          Base (ascii "a/svc.proto") ++ ascii "_" ++ Base (ascii "foo.go.tmpl")]
      = ascii "svc.proto_foo.go.tmpl" ∧
    ascii "./svc.proto_foo.go.tmpl" ≠
      Join [Dir (ascii "foo.go.tmpl"),
            Base (ascii "a/svc.proto") ++ ascii "_" ++ Base (ascii "foo.go.tmpl")] := by
  decide

/-- C2 (amended): the derived output path a successful `buildContent` returns
is the string concatenation `Dir(Filename) + "/" + Base(schema file) + "_" +
Base(Filename)`, not normalised; the path join of the two parts is the `Clean`
of it. -/
theorem derivedPath_is_concatenation {Tmpl : Type} (w : World Tmpl)
    (e : GenericTemplateBasedEncoder) (tmpl content tf : Bytes)
    (h : buildContent w e tmpl = .ok (content, tf)) :
    ∃ ast name, genAst w e tmpl = .ok ast ∧ e.file.Name = some name ∧
      tf = Dir ast.Filename ++ ascii "/" ++ (Base name ++ ascii "_" ++ Base ast.Filename) ∧
      Join [Dir ast.Filename, Base name ++ ascii "_" ++ Base ast.Filename] = Clean tf := by
  obtain ⟨ast, name, hg, hname, htf⟩ := buildContent_ok w e tmpl content tf h
  obtain ⟨ctx, t, out, hctx, _, _, hast⟩ := (genAst_ok_iff w e tmpl ast).mp hg
  have hfile : ast.File = e.file := by
    rw [hast]
    exact (genAstContext_ok w e tmpl ctx hctx).2.2.1
  have htf2 : tf = Dir ast.Filename ++ ascii "/" ++
      (Base name ++ ascii "_" ++ Base ast.Filename) := by
    rw [htf, derivedPath]
    simp
  refine ⟨ast, name, hg, hfile ▸ hname, htf2, ?_⟩
  have hsl : ascii "/" = [sep] := by decide
  rw [Join_pair _ _ (List.length_pos.mp (Dir_length_pos _)), htf2, hsl]
  simp

/-- C2 (amended) at `foo.go.tmpl` of the demo world. -/
theorem derivedPath_is_concatenation_witness :
    ∃ ast name, genAst demoWorld demoEncoder (ascii "foo.go.tmpl") = .ok ast ∧
      demoEncoder.file.Name = some name ∧
      ascii "./svc.proto_foo.go.tmpl"
        = Dir ast.Filename ++ ascii "/" ++ (Base name ++ ascii "_" ++ Base ast.Filename) ∧
      Join [Dir ast.Filename, Base name ++ ascii "_" ++ Base ast.Filename]
        = Clean (ascii "./svc.proto_foo.go.tmpl") :=
  derivedPath_is_concatenation demoWorld demoEncoder (ascii "foo.go.tmpl")
    (ascii "t/foo.go.tmpl") (ascii "./svc.proto_foo.go.tmpl") (by decide)

/-- The source `genAst` evaluates, by the result of `url.QueryUnescape`. -/
theorem genAst_source {Tmpl : Type} (w : World Tmpl)
    (e : GenericTemplateBasedEncoder) (p : Bytes) :
    (∀ u, QueryUnescape p = .ok u → ∀ ast,
      (genAst w e p = .ok ast ↔
        ∃ ctx t out, genAstContext w e p = .ok ctx ∧ ctx.Filename = [] ∧ ctx.RawFilename = p ∧
          w.parse u = .ok t ∧ w.execute t ctx = .ok out ∧
          ast = { ctx with Filename := out })) ∧
    (∀ bad, QueryUnescape p = .error bad → ∀ ast,
      (genAst w e p = .ok ast ↔
        ∃ ctx t out, genAstContext w e p = .ok ctx ∧ ctx.Filename = [] ∧ ctx.RawFilename = p ∧
          w.parse p = .ok t ∧ w.execute t ctx = .ok out ∧
          ast = { ctx with Filename := out })) ∧
    (∀ ast, genAst w e p = .ok ast → ast.RawFilename = p) := by
  refine ⟨?_, ?_, ?_⟩
  · intro u hu ast
    rw [genAst_ok_iff, hu]
    constructor
    · rintro ⟨ctx, t, out, hctx, ht, hout, hast⟩
      have hc := genAstContext_ok w e p ctx hctx
      exact ⟨ctx, t, out, hctx, hc.1, hc.2.1, ht, hout, hast⟩
    · rintro ⟨ctx, t, out, hctx, _, _, ht, hout, hast⟩
      exact ⟨ctx, t, out, hctx, ht, hout, hast⟩
  · intro bad hbad ast
    rw [genAst_ok_iff, hbad]
    constructor
    · rintro ⟨ctx, t, out, hctx, ht, hout, hast⟩
      have hc := genAstContext_ok w e p ctx hctx
      exact ⟨ctx, t, out, hctx, hc.1, hc.2.1, ht, hout, hast⟩
    · rintro ⟨ctx, t, out, hctx, _, _, ht, hout, hast⟩
      exact ⟨ctx, t, out, hctx, ht, hout, hast⟩
  · intro ast h
    obtain ⟨ctx, t, out, hctx, _, _, hast⟩ := (genAst_ok_iff w e p ast).mp h
    rw [hast]
    exact (genAstContext_ok w e p ctx hctx).2.1

set_option maxRecDepth 100000 in
theorem hex_digits : ∀ n : Nat, n < 256 →
    specHexValue (plusToSpace n.toUInt8)
        = (if ishex n.toUInt8 then some (unhex n.toUInt8).toNat else none) ∧
      (unhex n.toUInt8).toNat < 16 := by
  decide

set_option maxRecDepth 100000 in
theorem hex_pair : ∀ x : Nat, x < 16 → ∀ y : Nat, y < 16 →
    ((x.toUInt8 <<< (4 : UInt8)) ||| y.toUInt8 : UInt8) = (16 * x + y).toUInt8 := by
  decide

theorem toUInt8_toNat (c : UInt8) : c.toNat.toUInt8 = c := by
  cases c with
  | mk v => simp [Nat.toUInt8, UInt8.ofNat, UInt8.toNat]

theorem specHexValue_plusToSpace (c : UInt8) :
    specHexValue (plusToSpace c) = (if ishex c then some (unhex c).toNat else none) ∧
      (unhex c).toNat < 16 := by
  have := hex_digits c.toNat (UInt8.toNat_lt_size c)
  rwa [toUInt8_toNat] at this

theorem unhex_pair (a b : UInt8) :
    (16 * (unhex a).toNat + (unhex b).toNat).toUInt8 = unhex a <<< 4 ||| unhex b := by
  have := hex_pair (unhex a).toNat (specHexValue_plusToSpace a).2 (unhex b).toNat
    (specHexValue_plusToSpace b).2
  rw [toUInt8_toNat, toUInt8_toNat] at this
  exact this.symm

theorem plusToSpace_percent (c : UInt8) : plusToSpace c = 37 ↔ c = 37 := by
  unfold plusToSpace
  split_ifs with h
  · subst h
    decide
  · rfl

theorem specPercentDecode_cons_ne (c : UInt8) (rest : Bytes) (h : ¬ c = 37) :
    specPercentDecode (c :: rest) = (specPercentDecode rest).map (fun tail => c :: tail) := by
  rcases rest with _ | ⟨a, _ | ⟨b, r⟩⟩ <;> simp [specPercentDecode, h]

theorem escapeError_cons_ne (c : UInt8) (rest : Bytes) (h : ¬ c = 37) :
    escapeError (c :: rest) = escapeError rest := by
  rcases rest with _ | ⟨a, _ | ⟨b, r⟩⟩ <;> simp [escapeError, h]

theorem unescapeLoop_cons_ne (c : UInt8) (rest : Bytes) (h : ¬ c = 37) :
    unescapeLoop (c :: rest) = plusToSpace c :: unescapeLoop rest := by
  rcases rest with _ | ⟨a, _ | ⟨b, r⟩⟩ <;>
    (simp only [unescapeLoop, h, if_false, plusToSpace]; split_ifs <;> rfl)

/-- The two loops of `unescape` against the specification's decoding: the
first loop fails exactly when percent-decoding fails, and the second loop
computes the percent-decoding of the string whose `+` are turned into spaces. -/
theorem unescape_eq_specPercentDecode :
    ∀ p : Bytes, specPercentDecode (p.map plusToSpace) =
      match escapeError p with
      | none => some (unescapeLoop p)
      | some _ => none
  | [] => rfl
  | c :: rest => by
    by_cases hc : c = 37
    · subst hc
      have h37 : plusToSpace 37 = 37 := by decide
      match rest with
      | [] => simp [specPercentDecode, escapeError, h37]
      | [a] => simp [specPercentDecode, escapeError, h37]
      | a :: b :: rest2 =>
        have ih := unescape_eq_specPercentDecode rest2
        have ha := (specHexValue_plusToSpace a).1
        have hb := (specHexValue_plusToSpace b).1
        simp only [List.map_cons, h37, specPercentDecode, if_true, ha, hb, ih, escapeError,
          unescapeLoop]
        by_cases hxa : ishex a = true
        · by_cases hxb : ishex b = true
          · simp only [hxa, hxb, and_self, if_true]
            cases escapeError rest2 with
            | none => simp only [unhex_pair]
            | some bad => rfl
          · simp [hxa, hxb]
        · simp [hxa]
    · have hne : ¬ plusToSpace c = 37 := fun h => hc ((plusToSpace_percent c).mp h)
      have ih := unescape_eq_specPercentDecode rest
      rw [List.map_cons, specPercentDecode_cons_ne _ _ hne, ih, escapeError_cons_ne _ _ hc,
        unescapeLoop_cons_ne _ _ hc]
      cases escapeError rest with
      | none => rfl
      | some bad => rfl

/-- What `url.QueryUnescape` computes, in the words of the specification: the
percent-decoding of the string after every `+` has been turned into a space. -/
theorem QueryUnescape_spec (p : Bytes) :
    (∀ u, specPercentDecode (p.map plusToSpace) = some u → QueryUnescape p = .ok u) ∧
    (specPercentDecode (p.map plusToSpace) = none → ∃ bad, QueryUnescape p = .error bad) := by
  have h := unescape_eq_specPercentDecode p
  unfold QueryUnescape
  cases hesc : escapeError p with
  | none =>
    rw [hesc] at h
    simp only [] at h
    constructor
    · intro u hu
      rw [h] at hu
      simp only [Option.some.injEq] at hu
      rw [hu]
    · intro hn
      rw [h] at hn
      cases hn
  | some bad =>
    rw [hesc] at h
    simp only [] at h
    constructor
    · intro u hu
      rw [h] at hu
      cases hu
    · intro _
      exact ⟨bad, rfl⟩

theorem map_plusToSpace_of_no_plus (p : Bytes) (h : (43 : UInt8) ∉ p) :
    p.map plusToSpace = p := by
  induction p with
  | nil => rfl
  | cons c rest ih =>
    simp only [List.mem_cons, not_or] at h
    have hc : ¬ c = 43 := fun hc => h.1 hc.symm
    simp only [List.map_cons, plusToSpace, hc, if_false, ih h.2]

/-- C5 (as stated, refuted): the raw path `a+b.tmpl` has no percent-escape, so
its percent-decoded form is `a+b.tmpl` itself and the decoding succeeds; but
`genAst` evaluates `a b.tmpl`: in the demo world, where a template without
actions renders to its own text, the `Filename` it returns is `a b.tmpl` and
not the `a+b.tmpl` that evaluating the percent-decoded form gives. -/
theorem genAst_source_not_percent_decoded :
    specPercentDecode (ascii "a+b.tmpl") = some (ascii "a+b.tmpl") ∧
    QueryUnescape (ascii "a+b.tmpl") = .ok (ascii "a b.tmpl") ∧
    genAst demoWorld demoEncoder (ascii "a+b.tmpl")
      = .ok { demoAst with RawFilename := ascii "a+b.tmpl", Filename := ascii "a b.tmpl" } ∧
    (demoWorld.parse (ascii "a+b.tmpl")).bind
        (fun t => demoWorld.execute t { demoAst with RawFilename := ascii "a+b.tmpl",
                                                      Filename := [] })
      = .ok (ascii "a+b.tmpl") ∧
    ascii "a b.tmpl" ≠ ascii "a+b.tmpl" := by
  decide

/-- C5 (amended): `genAst` evaluates as template source the query-unescaped
form of the raw path `p`, that is the percent-decoded form of `p` after every
`+` in it has been turned into a space (the percent-decoded form of `p` itself
when `p` has no `+`), when that decoding succeeds, and `p` itself when it
fails; in both cases `genAst` succeeds exactly when the context is built and
that source parses and executes, so a decode failure is never the cause of an
error. The source is executed against a context whose `Filename` is empty and
whose `RawFilename` is `p`; the context returned is that context with
`Filename` set to the rendered output, and its `RawFilename` is still `p`. -/
theorem genAst_evaluates_query_unescaped {Tmpl : Type} (w : World Tmpl)
    (e : GenericTemplateBasedEncoder) (p : Bytes) :
    (∀ u, specPercentDecode (p.map plusToSpace) = some u →
      QueryUnescape p = .ok u ∧
      ∀ ast, (genAst w e p = .ok ast ↔
        ∃ ctx t out, genAstContext w e p = .ok ctx ∧ ctx.Filename = [] ∧ ctx.RawFilename = p ∧
          w.parse u = .ok t ∧ w.execute t ctx = .ok out ∧
          ast = { ctx with Filename := out })) ∧
    (specPercentDecode (p.map plusToSpace) = none →
      (∃ bad, QueryUnescape p = .error bad) ∧
      ∀ ast, (genAst w e p = .ok ast ↔
        ∃ ctx t out, genAstContext w e p = .ok ctx ∧ ctx.Filename = [] ∧ ctx.RawFilename = p ∧
          w.parse p = .ok t ∧ w.execute t ctx = .ok out ∧
          ast = { ctx with Filename := out })) ∧
    ((43 : UInt8) ∉ p → specPercentDecode (p.map plusToSpace) = specPercentDecode p) ∧
    (∀ ast, genAst w e p = .ok ast → ast.RawFilename = p) := by
  have hsrc := genAst_source w e p
  have hq := QueryUnescape_spec p
  refine ⟨?_, ?_, ?_, hsrc.2.2⟩
  · intro u hu
    exact ⟨hq.1 u hu, hsrc.1 u (hq.1 u hu)⟩
  · intro hn
    obtain ⟨bad, hbad⟩ := hq.2 hn
    exact ⟨⟨bad, hbad⟩, hsrc.2.1 bad hbad⟩
  · intro h
    rw [map_plusToSpace_of_no_plus p h]

/-- C5 (amended) in the demo world: `100%.tmpl` does not decode and is
evaluated as it is; `a+b%2B.tmpl` is evaluated as `a b+.tmpl`, the `+` turned
into a space and `%2B` decoded to `+`. -/
theorem genAst_evaluates_query_unescaped_witness :
    specPercentDecode ((ascii "100%.tmpl").map plusToSpace) = none ∧
    genAst demoWorld demoEncoder (ascii "100%.tmpl")
      = .ok { demoAst with RawFilename := ascii "100%.tmpl", Filename := ascii "100%.tmpl" } ∧
    specPercentDecode ((ascii "a+b%2B.tmpl").map plusToSpace) = some (ascii "a b+.tmpl") ∧
    QueryUnescape (ascii "a+b%2B.tmpl") = .ok (ascii "a b+.tmpl") ∧
    genAst demoWorld demoEncoder (ascii "a+b%2B.tmpl")
      = .ok { demoAst with RawFilename := ascii "a+b%2B.tmpl", Filename := ascii "a b+.tmpl" } :=
  ⟨by decide,
   (((genAst_evaluates_query_unescaped demoWorld demoEncoder (ascii "100%.tmpl")).2.1
      (by decide)).2 _).mpr
     ⟨{ demoAst with RawFilename := ascii "100%.tmpl", Filename := [] }, ascii "100%.tmpl",
      ascii "100%.tmpl", by decide, rfl, rfl, rfl, rfl, rfl⟩,
   by decide,
   ((genAst_evaluates_query_unescaped demoWorld demoEncoder (ascii "a+b%2B.tmpl")).1
      (ascii "a b+.tmpl") (by decide)).1,
   (((genAst_evaluates_query_unescaped demoWorld demoEncoder (ascii "a+b%2B.tmpl")).1
      (ascii "a b+.tmpl") (by decide)).2 _).mpr
     ⟨{ demoAst with RawFilename := ascii "a+b%2B.tmpl", Filename := [] }, ascii "a b+.tmpl",
      ascii "a b+.tmpl", by decide, rfl, rfl, rfl, rfl, rfl⟩⟩

/-! ## The option map -/

theorem GoMap.mem_keys_set {V : Type} (m : GoMap V) (k k1 : Bytes) (v : V) :
    k1 ∈ (m.set k v).keys ↔ k1 = k ∨ k1 ∈ m.keys := by
  simp only [GoMap.set, GoMap.keys, List.map_cons, List.mem_cons, List.mem_map,
    List.mem_filter, Prod.exists]
  constructor
  · rintro (h | ⟨a, b, ⟨hm, _⟩, rfl⟩)
    · exact Or.inl h
    · exact Or.inr ⟨a, b, hm, rfl⟩
  · rintro (h | ⟨a, b, hm, rfl⟩)
    · exact Or.inl h
    · by_cases hk : a = k
      · exact Or.inl hk
      · exact Or.inr ⟨a, b, ⟨hm, by simpa using hk⟩, rfl⟩

theorem GoMap.nodup_keys_set {V : Type} (m : GoMap V) (k : Bytes) (v : V)
    (h : m.keys.Nodup) : (m.set k v).keys.Nodup := by
  simp only [GoMap.set, GoMap.keys, List.map_cons, List.nodup_cons, List.mem_map,
    List.mem_filter, Prod.exists, not_exists, not_and]
  constructor
  · rintro a b ⟨_, hne⟩ rfl
    simp at hne
  · exact (h.sublist (List.Sublist.map _ (List.filter_sublist _)))

theorem GoMap.get_set {V : Type} (m : GoMap V) (k k1 : Bytes) (v : V) :
    (m.set k v).get k1 = if k1 = k then some v else m.get k1 := by
  simp only [GoMap.set, GoMap.get, List.find?_cons]
  by_cases hk : k = k1
  · subst hk
    simp
  · have hk1 : ¬ k1 = k := fun h => hk h.symm
    simp only [hk, decide_False, hk1, if_false]
    congr 1
    induction m with
    | nil => rfl
    | cons a m ih =>
      by_cases ha : a.1 = k
      · have hne : ¬ a.1 = k1 := fun h => hk (ha ▸ h)
        rw [List.filter_cons_of_neg (by simp [ha]), List.find?_cons_of_neg _ (by simp [hne]), ih]
      · rw [List.filter_cons_of_pos (by simp [ha])]
        by_cases ha1 : a.1 = k1
        · rw [List.find?_cons_of_pos _ (by simp [ha1]), List.find?_cons_of_pos _ (by simp [ha1])]
        · rw [List.find?_cons_of_neg _ (by simp [ha1]), List.find?_cons_of_neg _ (by simp [ha1]),
            ih]

theorem GoMap.get_isSome_of_mem_keys {V : Type} (m : GoMap V) (k : Bytes)
    (h : k ∈ m.keys) : ∃ v, m.get k = some v := by
  simp only [GoMap.keys, List.mem_map] at h
  obtain ⟨kv, hkv, rfl⟩ := h
  cases hf : m.find? (fun x => x.1 = kv.1) with
  | none =>
    have := List.find?_eq_none.mp hf kv hkv
    simp at this
  | some x => exact ⟨x.2, by simp [GoMap.get, hf]⟩

/-- The loop invariant of `optionLoop`, from any map `g0` with distinct keys. -/
theorem optionLoop_spec {Tmpl : Type} (w : World Tmpl) (msgs : List (Option DescriptorProto)) :
    ∀ (g0 g : GoMap GoTemplateOption), optionLoop w msgs g0 = .ok g →
      (g0.keys.Nodup → g.keys.Nodup) ∧
      (∀ k, k ∈ g.keys ↔ k ∈ g0.keys ∨ ∃ v i, some v ∈ msgs ∧ carries w v k i) ∧
      (∀ k i, g.get k = some i →
        g0.get k = some i ∨ ∃ v, some v ∈ msgs ∧ carries w v k i) := by
  induction msgs with
  | nil =>
    intro g0 g h
    simp only [optionLoop, Except.ok.injEq] at h
    subst h
    simp
  | cons m rest ih =>
    intro g0 g h
    cases m with
    | none =>
      simp only [optionLoop] at h
      obtain ⟨h1, h2, h3⟩ := ih g0 g h
      refine ⟨h1, ?_, ?_⟩
      · intro k
        rw [h2]
        simp
      · intro k i hk
        rcases h3 k i hk with h | ⟨v, hv, hc⟩
        · exact Or.inl h
        · exact Or.inr ⟨v, List.mem_cons_of_mem _ hv, hc⟩
    | some v =>
      simp only [optionLoop] at h
      have skip : v.Options.bind w.getExtension = none → optionLoop w rest g0 = .ok g →
          (g0.keys.Nodup → g.keys.Nodup) ∧
          (∀ k, k ∈ g.keys ↔ k ∈ g0.keys ∨ ∃ v1 i, some v1 ∈ some v :: rest ∧ carries w v1 k i) ∧
          (∀ k i, g.get k = some i →
            g0.get k = some i ∨ ∃ v1, some v1 ∈ some v :: rest ∧ carries w v1 k i) := by
        intro hnone h
        obtain ⟨h1, h2, h3⟩ := ih g0 g h
        refine ⟨h1, ?_, ?_⟩
        · intro k
          rw [h2]
          constructor
          · rintro (h | ⟨v1, i, hv, hc⟩)
            · exact Or.inl h
            · exact Or.inr ⟨v1, i, List.mem_cons_of_mem _ hv, hc⟩
          · rintro (h | ⟨v1, i, hv, hc⟩)
            · exact Or.inl h
            · simp only [List.mem_cons, Option.some.injEq] at hv
              rcases hv with rfl | hv
              · rw [hc.2] at hnone
                cases hnone
              · exact Or.inr ⟨v1, i, hv, hc⟩
        · intro k i hk
          rcases h3 k i hk with h | ⟨v1, hv, hc⟩
          · exact Or.inl h
          · exact Or.inr ⟨v1, List.mem_cons_of_mem _ hv, hc⟩
      cases hopt : v.Options with
      | none =>
        rw [hopt] at h
        exact skip (by simp [hopt]) h
      | some mo =>
        rw [hopt] at h
        simp only [] at h
        cases hext : w.getExtension mo with
        | none =>
          rw [hext] at h
          exact skip (by simp [hopt, hext]) h
        | some i0 =>
          rw [hext] at h
          simp only [] at h
          cases hname : v.Name with
          | none =>
            rw [hname] at h
            cases h
          | some name =>
            rw [hname] at h
            simp only [] at h
            have hcar : carries w v name i0 := ⟨hname, by simp [hopt, hext]⟩
            obtain ⟨h1, h2, h3⟩ := ih (g0.set name i0) g h
            refine ⟨fun hn => h1 (GoMap.nodup_keys_set _ _ _ hn), ?_, ?_⟩
            · intro k
              rw [h2, GoMap.mem_keys_set]
              constructor
              · rintro ((rfl | h) | ⟨v1, i, hv, hc⟩)
                · exact Or.inr ⟨v, i0, List.mem_cons_self _ _, hcar⟩
                · exact Or.inl h
                · exact Or.inr ⟨v1, i, List.mem_cons_of_mem _ hv, hc⟩
              · rintro (h | ⟨v1, i, hv, hc⟩)
                · exact Or.inl (Or.inr h)
                · simp only [List.mem_cons, Option.some.injEq] at hv
                  rcases hv with rfl | hv
                  · have : name = k := by
                      have := hc.1
                      rw [hname] at this
                      exact Option.some.inj this
                    exact Or.inl (Or.inl this.symm)
                  · exact Or.inr ⟨v1, i, hv, hc⟩
            · intro k i hk
              rcases h3 k i hk with h | ⟨v1, hv, hc⟩
              · rw [GoMap.get_set] at h
                split_ifs at h with hkn
                · rw [hkn, ← Option.some.inj h]
                  exact Or.inr ⟨v, List.mem_cons_self _ _, hcar⟩
                · exact Or.inl h
              · exact Or.inr ⟨v1, List.mem_cons_of_mem _ hv, hc⟩

/-- The option loop returns a map when every carrying message has a name. -/
theorem optionLoop_total {Tmpl : Type} (w : World Tmpl) (msgs : List (Option DescriptorProto))
    (hn : ∀ v, some v ∈ msgs → v.Options.bind w.getExtension ≠ none → v.Name ≠ none) :
    ∀ g0, ∃ g, optionLoop w msgs g0 = .ok g := by
  induction msgs with
  | nil => exact fun g0 => ⟨g0, rfl⟩
  | cons m rest ih =>
    intro g0
    have ih1 := ih (fun v hv => hn v (List.mem_cons_of_mem _ hv))
    cases m with
    | none => exact ih1 g0
    | some v =>
      simp only [optionLoop]
      cases hopt : v.Options with
      | none => exact ih1 g0
      | some mo =>
        simp only []
        cases hext : w.getExtension mo with
        | none => exact ih1 g0
        | some i0 =>
          simp only []
          cases hname : v.Name with
          | none =>
            exact absurd hname (hn v (List.mem_cons_self _ _) (by simp [hopt, hext]))
          | some name => exact ih1 _

theorem eq_singleton_of_nodup {α : Type} (l : List α) (a : α) (hn : l.Nodup)
    (hmem : a ∈ l) (hall : ∀ x ∈ l, x = a) : l = [a] := by
  cases l with
  | nil => cases hmem
  | cons x t =>
    have hx : x = a := hall x (List.mem_cons_self _ _)
    subst hx
    cases t with
    | nil => rfl
    | cons y t1 =>
      have hy : y = x := hall y (List.mem_cons_of_mem _ (List.mem_cons_self _ _))
      subst hy
      simp at hn

/-- C7: the option map `genAst` builds from the messages of the schema file
(`File.MessageType`) has distinct keys, and its key set is exactly the names of
the messages that carry the option extension; every key is mapped to the blob
of a carrying message of that name, to the blob of that very message when
message names are distinct; a name no carrying message has is absent. When
one name `foo` is the only one carried, the key list is exactly `[foo]`. The
map is built whenever every carrying message has a name. -/
theorem option_map_keys {Tmpl : Type} (w : World Tmpl) (e : GenericTemplateBasedEncoder) :
    ((∀ v, some v ∈ e.file.MessageType → v.Options.bind w.getExtension ≠ none →
        v.Name ≠ none) →
      ∃ gto, optionLoop w e.file.MessageType [] = .ok gto) ∧
    (∀ p ast, genAst w e p = .ok ast →
      optionLoop w e.file.MessageType [] = .ok ast.Options ∧
      ast.Options.keys.Nodup ∧
      (∀ k, k ∈ ast.Options.keys ↔ ∃ v i, some v ∈ e.file.MessageType ∧ carries w v k i) ∧
      (∀ k i, ast.Options.get k = some i →
        ∃ v, some v ∈ e.file.MessageType ∧ carries w v k i) ∧
      ((∀ v v1, some v ∈ e.file.MessageType → some v1 ∈ e.file.MessageType →
          v.Name = v1.Name → v = v1) →
        ∀ v k i, some v ∈ e.file.MessageType → carries w v k i →
          ast.Options.get k = some i) ∧
      (∀ k, (∀ v i, some v ∈ e.file.MessageType → ¬ carries w v k i) →
        k ∉ ast.Options.keys ∧ ast.Options.get k = none) ∧
      (∀ foo, (∃ v i, some v ∈ e.file.MessageType ∧ carries w v foo i) →
        (∀ v k i, some v ∈ e.file.MessageType → carries w v k i → k = foo) →
        ast.Options.keys = [foo])) := by
  refine ⟨fun hn => optionLoop_total w _ hn [], ?_⟩
  intro p ast h
  obtain ⟨ctx, t, out, hctx, _, _, hast⟩ := (genAst_ok_iff w e p ast).mp h
  have hloop : optionLoop w e.file.MessageType [] = .ok ast.Options := by
    rw [hast]
    exact (genAstContext_ok w e p ctx hctx).2.2.2
  obtain ⟨h1, h2, h3⟩ := optionLoop_spec w _ [] _ hloop
  have hnd : ast.Options.keys.Nodup := h1 List.nodup_nil
  have hkeys : ∀ k, k ∈ ast.Options.keys ↔
      ∃ v i, some v ∈ e.file.MessageType ∧ carries w v k i := by
    intro k
    rw [h2]
    simp [GoMap.keys]
  have hget : ∀ k i, ast.Options.get k = some i →
      ∃ v, some v ∈ e.file.MessageType ∧ carries w v k i := by
    intro k i hk
    rcases h3 k i hk with h | h
    · simp [GoMap.get] at h
    · exact h
  refine ⟨hloop, hnd, hkeys, hget, ?_, ?_, ?_⟩
  · intro huniq v k i hv hc
    obtain ⟨j, hj⟩ := GoMap.get_isSome_of_mem_keys _ k ((hkeys k).mpr ⟨v, i, hv, hc⟩)
    obtain ⟨v1, hv1, hc1⟩ := hget k j hj
    have hvv : v = v1 := huniq v v1 hv hv1 (hc.1.trans hc1.1.symm)
    subst hvv
    rw [hj, ← hc.2, ← hc1.2]
  · intro k hno
    have hk : k ∉ ast.Options.keys := fun hmem => by
      obtain ⟨v, i, hv, hc⟩ := (hkeys k).mp hmem
      exact hno v i hv hc
    refine ⟨hk, ?_⟩
    cases hg : ast.Options.get k with
    | none => rfl
    | some i =>
      obtain ⟨v, hv, hc⟩ := hget k i hg
      exact absurd hc (hno v i hv)
  · intro foo hex hall
    apply eq_singleton_of_nodup _ _ hnd ((hkeys foo).mpr hex)
    intro x hx
    obtain ⟨v, i, hv, hc⟩ := (hkeys x).mp hx
    exact hall v x i hv hc

/-- C7 at the demo file, whose only option-carrying message is `Foo`: the map
has exactly one entry, keyed `Foo`; `Bar` (options without the extension) and
`Baz` (no options) are absent. -/
theorem option_map_keys_witness :
    genAst demoWorld demoEncoder (ascii "foo.go.tmpl") = .ok demoAst ∧
    demoAst.Options = [(ascii "Foo", { raw := ascii "opt" })] ∧
    demoAst.Options.keys.Nodup ∧
    (ascii "Bar" ∉ demoAst.Options.keys ∧ demoAst.Options.get (ascii "Bar") = none) :=
  ⟨by decide, by decide,
   ((option_map_keys demoWorld demoEncoder).2 (ascii "foo.go.tmpl") demoAst (by decide)).2.1,
   ((option_map_keys demoWorld demoEncoder).2 (ascii "foo.go.tmpl") demoAst
      (by decide)).2.2.2.2.2.1 (ascii "Bar") (by
        intro v i hv hc
        have hmem : some v ∈ demoFile.MessageType := hv
        simp only [demoFile, List.mem_cons, Option.some.injEq, List.mem_singleton,
          List.not_mem_nil, or_false] at hmem
        rcases hmem with rfl | rfl | h | rfl
        · exact absurd hc.1 (by decide)
        · exact absurd hc.2 (by simp [demoWorld])
        · cases h
        · exact absurd hc.2 (by simp))⟩

/-! ## The template locator -/

theorem templatesFn_no_skipDir {Tmpl : Type} (w : World Tmpl)
    (e : GenericTemplateBasedEncoder) (path : Bytes) (isDir : Bool) (acc acc1 : List Bytes)
    (err : GoError) (h : templatesFn w e path (.ok isDir) acc = (acc1, some err)) :
    err ≠ .skipDir := by
  unfold templatesFn at h
  simp only [] at h
  split_ifs at h
  · cases h
  · cases h
  · split at h
    · cases h
      simp
    · cases h

theorem templatesFn_file {Tmpl : Type} (w : World Tmpl) (e : GenericTemplateBasedEncoder)
    (path : Bytes) (acc acc1 : List Bytes)
    (h : templatesFn w e path (.ok false) acc = (acc1, none)) :
    acc1.map Except.ok
      = acc.map Except.ok ++ ([path].filter isTmpl).map (w.rel e.templateDir) := by
  unfold templatesFn at h
  simp only [Bool.false_eq_true, if_false] at h
  by_cases hext : Ext path = tmplSuffix
  · simp only [hext, ne_eq, not_true_eq_false, if_false] at h
    split at h
    · cases h
    · rename_i r hr
      cases h
      simp [isTmpl, hext, hr]
  · simp only [ne_eq, hext, not_false_eq_true, if_true] at h
    cases h
    simp [isTmpl, hext]

mutual
theorem walk_no_skipDir {Tmpl : Type} (w : World Tmpl) (e : GenericTemplateBasedEncoder) :
    ∀ (path : Bytes) (node : FsNode) (acc acc1 : List Bytes) (err : GoError),
      walk (templatesFn w e) path node acc = (acc1, some err) → err ≠ .skipDir
  | path, .file, acc, acc1, err, h => by
    simp only [walk] at h
    exact templatesFn_no_skipDir w e path false acc acc1 err h
  | path, .absent msg, acc, acc1, err, h => by
    simp only [walk, templatesFn] at h
    cases h
    simp
  | path, .unreadable msg, acc, acc1, err, h => by
    simp only [walk, templatesFn] at h
    cases h
    simp
  | path, .dir entries, acc, acc1, err, h => by
    simp only [walk] at h
    split at h
    · rename_i st1 err1 hfn
      cases h
      exact templatesFn_no_skipDir w e path true acc _ _ hfn
    · exact walkNames_no_skipDir w e path entries _ acc1 err h
theorem walkNames_no_skipDir {Tmpl : Type} (w : World Tmpl) (e : GenericTemplateBasedEncoder) :
    ∀ (path : Bytes) (entries : List (Bytes × FsNode)) (acc acc1 : List Bytes) (err : GoError),
      walkNames (templatesFn w e) path entries acc = (acc1, some err) → err ≠ .skipDir
  | path, [], acc, acc1, err, h => by
    simp only [walkNames] at h
    cases h
  | path, (name, node) :: rest, acc, acc1, err, h => by
    simp only [walkNames] at h
    split at h
    · exact walkNames_no_skipDir w e path rest _ acc1 err h
    · rename_i st1 err1 hw
      have hne := walk_no_skipDir w e (Join [path, name]) node acc st1 err1 hw
      split at h
      · simp only [ne_eq, hne, not_false_eq_true, if_true] at h
        cases h
        exact hne
      · simp only [ne_eq, hne, not_false_eq_true, or_true, if_true] at h
        cases h
        exact hne
end

mutual
theorem walk_spec {Tmpl : Type} (w : World Tmpl) (e : GenericTemplateBasedEncoder) :
    ∀ (path : Bytes) (node : FsNode) (acc acc1 : List Bytes),
      walk (templatesFn w e) path node acc = (acc1, none) →
      readable node = true ∧
      acc1.map Except.ok = acc.map Except.ok ++
        ((filesUnder path node).filter isTmpl).map (w.rel e.templateDir)
  | path, .file, acc, acc1, h => by
    simp only [walk] at h
    exact ⟨rfl, by simpa [filesUnder] using templatesFn_file w e path acc acc1 h⟩
  | path, .absent msg, acc, acc1, h => by
    simp only [walk, templatesFn] at h
    cases h
  | path, .unreadable msg, acc, acc1, h => by
    simp only [walk, templatesFn] at h
    cases h
  | path, .dir entries, acc, acc1, h => by
    simp only [walk] at h
    split at h
    · cases h
    · rename_i st1 hfn
      have hst : st1 = acc := by
        simp only [templatesFn, if_true] at hfn
        cases hfn
        rfl
      subst hst
      have := walkNames_spec w e path entries st1 acc1 h
      simpa [filesUnder, readable] using this
theorem walkNames_spec {Tmpl : Type} (w : World Tmpl) (e : GenericTemplateBasedEncoder) :
    ∀ (path : Bytes) (entries : List (Bytes × FsNode)) (acc acc1 : List Bytes),
      walkNames (templatesFn w e) path entries acc = (acc1, none) →
      readableAll entries = true ∧
      acc1.map Except.ok = acc.map Except.ok ++
        ((filesIn path entries).filter isTmpl).map (w.rel e.templateDir)
  | path, [], acc, acc1, h => by
    simp only [walkNames] at h
    cases h
    simp [filesIn, readableAll]
  | path, (name, node) :: rest, acc, acc1, h => by
    simp only [walkNames] at h
    split at h
    · rename_i st1 hw
      obtain ⟨hr1, h1⟩ := walk_spec w e (Join [path, name]) node acc st1 hw
      obtain ⟨hr2, h2⟩ := walkNames_spec w e path rest st1 acc1 h
      refine ⟨by simp [readableAll, hr1, hr2], ?_⟩
      rw [h2, h1]
      simp [filesIn]
    · rename_i st1 err1 hw
      have hne := walk_no_skipDir w e (Join [path, name]) node acc st1 err1 hw
      split at h
      · simp only [ne_eq, hne, not_false_eq_true, if_true] at h
        cases h
      · simp only [ne_eq, hne, not_false_eq_true, or_true, if_true] at h
        cases h
end

mutual
theorem walk_total {Tmpl : Type} (w : World Tmpl) (e : GenericTemplateBasedEncoder) :
    ∀ (path : Bytes) (node : FsNode) (acc : List Bytes), readable node = true →
      (∀ p ∈ (filesUnder path node).filter isTmpl, ∃ r, w.rel e.templateDir p = .ok r) →
      ∃ acc1, walk (templatesFn w e) path node acc = (acc1, none)
  | path, .file, acc, _, hrel => by
    simp only [walk, templatesFn, Bool.false_eq_true, if_false]
    by_cases hext : Ext path = tmplSuffix
    · obtain ⟨r, hr⟩ := hrel path (by simp [filesUnder, isTmpl, hext])
      simp [hext, hr]
    · simp [hext]
  | path, .absent msg, acc, hr, _ => by simp [readable] at hr
  | path, .unreadable msg, acc, hr, _ => by simp [readable] at hr
  | path, .dir entries, acc, hr, hrel => by
    simp only [walk, templatesFn, if_true]
    exact walkNames_total w e path entries acc (by simpa [readable] using hr)
      (by simpa [filesUnder] using hrel)
theorem walkNames_total {Tmpl : Type} (w : World Tmpl) (e : GenericTemplateBasedEncoder) :
    ∀ (path : Bytes) (entries : List (Bytes × FsNode)) (acc : List Bytes),
      readableAll entries = true →
      (∀ p ∈ (filesIn path entries).filter isTmpl, ∃ r, w.rel e.templateDir p = .ok r) →
      ∃ acc1, walkNames (templatesFn w e) path entries acc = (acc1, none)
  | path, [], acc, _, _ => ⟨acc, by simp [walkNames]⟩
  | path, (name, node) :: rest, acc, hr, hrel => by
    simp only [readableAll, Bool.and_eq_true] at hr
    have hrel1 : ∀ p ∈ (filesUnder (Join [path, name]) node).filter isTmpl,
        ∃ r, w.rel e.templateDir p = .ok r := fun p hp =>
      hrel p (by
        simp only [filesIn, List.filter_append, List.mem_append]
        exact Or.inl hp)
    have hrel2 : ∀ p ∈ (filesIn path rest).filter isTmpl,
        ∃ r, w.rel e.templateDir p = .ok r := fun p hp =>
      hrel p (by
        simp only [filesIn, List.filter_append, List.mem_append]
        exact Or.inr hp)
    obtain ⟨st1, h1⟩ := walk_total w e (Join [path, name]) node acc hr.1 hrel1
    obtain ⟨acc1, h2⟩ := walkNames_total w e path rest st1 hr.2 hrel2
    exact ⟨acc1, by simp only [walkNames, h1, h2]⟩
end

/-- C6: when the walk of the template directory completes without error,
`templates` returns exactly the root-relative paths (`filepath.Rel` of the
template directory and the path) of the non-directory files of the tree whose
extension is `.tmpl`, one entry per such file, at any depth, in walk order;
directories and files with another extension contribute nothing. The walk
completes without error when every node can be read and `Rel` succeeds on those
files. -/
theorem templates_exact {Tmpl : Type} (w : World Tmpl) (e : GenericTemplateBasedEncoder) :
    (∀ names, templates w e = (names, none) →
      readable w.root = true ∧
      names.map Except.ok =
        ((filesUnder e.templateDir w.root).filter isTmpl).map (w.rel e.templateDir) ∧
      names.length = ((filesUnder e.templateDir w.root).filter isTmpl).length) ∧
    (readable w.root = true →
      (∀ p ∈ (filesUnder e.templateDir w.root).filter isTmpl,
        ∃ r, w.rel e.templateDir p = .ok r) →
      ∃ names, templates w e = (names, none)) := by
  constructor
  · intro names h
    unfold templates Walk at h
    split at h
    · rename_i st1 hw
      exact absurd rfl (walk_no_skipDir w e _ _ _ _ _ hw)
    · obtain ⟨hr, hspec⟩ := walk_spec w e e.templateDir w.root [] names h
      simp only [List.map_nil, List.nil_append] at hspec
      refine ⟨hr, hspec, ?_⟩
      have := congrArg List.length hspec
      simpa using this
  · intro hr hrel
    obtain ⟨names, h⟩ := walk_total w e e.templateDir w.root [] hr hrel
    refine ⟨names, ?_⟩
    unfold templates Walk
    rw [h]

/-- C6 in the demo world: of `empty.tmpl`, `foo.go.tmpl`, `notes.txt` and the
directory `sub.tmpl` holding `README` and `bar.tmpl`, the locator returns the
three `.tmpl` files, the nested one included, and neither the directory
`sub.tmpl` nor the other files. -/
theorem templates_exact_witness :
    templates demoWorld demoEncoder
      = ([ascii "empty.tmpl", ascii "foo.go.tmpl", ascii "sub.tmpl/bar.tmpl"], none) ∧
    [ascii "empty.tmpl", ascii "foo.go.tmpl", ascii "sub.tmpl/bar.tmpl"].map Except.ok =
      ((filesUnder demoEncoder.templateDir demoWorld.root).filter isTmpl).map
        (demoWorld.rel demoEncoder.templateDir) ∧
    filesUnder demoEncoder.templateDir demoWorld.root
      = [ascii "t/empty.tmpl", ascii "t/foo.go.tmpl", ascii "t/notes.txt",
         ascii "t/sub.tmpl/README", ascii "t/sub.tmpl/bar.tmpl"] :=
  ⟨by decide,
   ((templates_exact demoWorld demoEncoder).1 _ (by decide)).2.1,
   by decide⟩

/-! ## The merge -/

theorem Sim.names {st : MergeState} {l : List ResponseFile} (h : Sim st l) :
    st.File.map st.nameAt = (l.map (fun g => g.Name)).map some := by
  have := congrArg (List.map (Option.map (fun g : ResponseFile => g.Name))) h.emitted
  simpa [MergeState.nameAt, Function.comp_def] using this

theorem filterMap_of_map_eq_some {α : Type} (g : Nat → Option α) :
    ∀ (ps : List Nat) (l : List α), ps.map g = l.map some → ps.filterMap g = l
  | [], [], _ => rfl
  | [], _ :: _, h => by simp at h
  | _ :: _, [], h => by simp at h
  | p :: ps, a :: t, h => by
    simp only [List.map_cons, List.cons.injEq] at h
    simp only [List.filterMap_cons, h.1]
    rw [filterMap_of_map_eq_some g ps t h.2]

theorem Sim.emitted_eq {st : MergeState} {l : List ResponseFile} (h : Sim st l) :
    st.emitted = l :=
  filterMap_of_map_eq_some _ _ _ h.emitted

theorem Sim.empty : Sim MergeState.empty [] :=
  { emitted := rfl, nodup := List.nodup_nil,
    found := fun name val h => by simp [MergeState.empty, GoMap.get] at h,
    missing := fun name _ => by simp }

/-- One call of `concatOrAppend` on a pointer `b` to an object not yet merged. -/
theorem concatOrAppend_sim (st : MergeState) (l : List ResponseFile) (b : Nat)
    (f : ResponseFile) (hS : Sim st l) (hb : ∀ q ∈ st.File, q < b) (hf : st.heap[b]? = some f) :
    Sim (concatOrAppend st b) (regList l f) ∧
      (∀ q ∈ (concatOrAppend st b).File, q < b + 1) ∧
      (∀ q, b < q → (concatOrAppend st b).heap[q]? = st.heap[q]?) := by
  unfold concatOrAppend
  simp only [hf]
  cases hget : st.tmplMap.get f.Name with
  | none =>
    simp only []
    have hnot : f.Name ∉ l.map (fun g => g.Name) := hS.missing _ hget
    have hreg : regList l f = l ++ [f] := by simp only [regList, hnot, if_false]
    rw [hreg]
    refine ⟨⟨?_, ?_, ?_, ?_⟩, ?_, fun _ _ => trivial⟩
    · simp [hS.emitted, hf]
    · show (List.map st.nameAt (st.File ++ [b])).Nodup
      have hn := hS.nodup
      have hnames := hS.names
      rw [List.map_append, List.nodup_append]
      refine ⟨hn, by simp, ?_⟩
      rw [hnames]
      simp only [List.map_cons, List.map_nil, MergeState.nameAt, hf, Option.map_some',
        List.disjoint_singleton]
      simpa using hnot
    · intro name val h
      simp only [GoMap.get_set] at h
      split_ifs at h with hname
      · cases h
        exact ⟨by simp, by simp [MergeState.nameAt, hf, hname]⟩
      · obtain ⟨h1, h2⟩ := hS.found name val h
        exact ⟨List.mem_append_left _ h1, h2⟩
    · intro name h
      simp only [GoMap.get_set] at h
      split_ifs at h with hname
      have := hS.missing name h
      simp only [List.map_append, List.mem_append, List.map_cons, List.map_nil,
        List.mem_singleton, not_or]
      exact ⟨this, hname⟩
    · intro q hq
      simp only [List.mem_append, List.mem_singleton] at hq
      rcases hq with hq | rfl
      · exact Nat.lt_succ_of_lt (hb q hq)
      · exact Nat.lt_succ_self _
  | some val =>
    simp only []
    obtain ⟨hval, hname⟩ := hS.found _ _ hget
    have hsome : ∃ v, st.heap[val]? = some v ∧ v.Name = f.Name := by
      simp only [MergeState.nameAt] at hname
      cases hv : st.heap[val]? with
      | none => simp [hv] at hname
      | some v => exact ⟨v, rfl, by simpa [hv] using hname⟩
    obtain ⟨v, hv, hvn⟩ := hsome
    simp only [hv]
    have hvl : v ∈ l := by
      have : some v ∈ st.File.map (fun q => st.heap[q]?) :=
        List.mem_map.mpr ⟨val, hval, hv⟩
      rw [hS.emitted] at this
      simpa using this
    have hin : f.Name ∈ l.map (fun g => g.Name) := List.mem_map.mpr ⟨v, hvl, hvn⟩
    have hreg : regList l f = l.map (fun g =>
        if g.Name = f.Name then { g with Content := g.Content ++ f.Content } else g) := by
      simp only [regList, hin, if_true]
    rw [hreg]
    have hlt : val < st.heap.length := by
      by_contra hc
      rw [List.getElem?_eq_none (by omega)] at hv
      cases hv
    have hnameAt : ∀ q, MergeState.nameAt
        { st with heap := st.heap.set val { v with Content := v.Content ++ f.Content } } q
        = st.nameAt q := by
      intro q
      simp only [MergeState.nameAt, List.getElem?_set]
      by_cases hq : val = q
      · subst hq
        simp [hlt, hv]
      · simp [hq]
    refine ⟨⟨?_, ?_, ?_, ?_⟩, fun q hq => Nat.lt_succ_of_lt (hb q hq), ?_⟩
    · simp only []
      have hmm : ∀ u : ResponseFile → ResponseFile,
          List.map some (List.map u l) = List.map (Option.map u) (List.map some l) := by
        intro u
        simp [List.map_map, Function.comp_def]
      rw [hmm, ← hS.emitted, List.map_map]
      apply List.map_congr_left
      intro q hq
      simp only [List.getElem?_set, Function.comp_apply]
      by_cases hqv : val = q
      · subst hqv
        simp [hlt, hv, hvn]
      · simp only [hqv, if_false]
        cases hx : st.heap[q]? with
        | none => rfl
        | some x =>
          have hxn : x.Name ≠ f.Name := by
            intro hxe
            apply hqv
            apply List.inj_on_of_nodup_map hS.nodup hval hq
            simp [MergeState.nameAt, hv, hx, hvn, hxe]
          simp [hxn]
    · have hn := hS.nodup
      simpa only [funext hnameAt] using hn
    · intro name p h
      obtain ⟨h1, h2⟩ := hS.found name p h
      exact ⟨h1, by rw [hnameAt]; exact h2⟩
    · intro name h
      have := hS.missing name h
      simp only [List.map_map, Function.comp_def]
      have hsame : (fun g : ResponseFile =>
          (if g.Name = f.Name then { g with Content := g.Content ++ f.Content } else g).Name)
          = fun g => g.Name := by
        funext g
        split_ifs <;> rfl
      rw [hsame]
      exact this
    · intro q hq
      simp only [List.getElem?_set]
      have : val ≠ q := by
        have := hb val hval
        omega
      simp [this]

theorem concatOrAppend_heap_length (st : MergeState) (b : Nat) :
    (concatOrAppend st b).heap.length = st.heap.length := by
  unfold concatOrAppend
  repeat' split
  all_goals simp

/-- The loop over the pointers `b, b+1, ...` to the objects `rest`. -/
theorem foldl_concatOrAppend_sim :
    ∀ (rest : List ResponseFile) (b : Nat) (st : MergeState) (l : List ResponseFile),
      (∀ j, j < rest.length → st.heap[b + j]? = rest[j]?) →
      (∀ q ∈ st.File, q < b) → Sim st l →
      Sim ((List.range' b rest.length).foldl concatOrAppend st) (rest.foldl regList l) ∧
        (∀ q ∈ ((List.range' b rest.length).foldl concatOrAppend st).File,
          q < b + rest.length) ∧
        ((List.range' b rest.length).foldl concatOrAppend st).heap.length = st.heap.length
  | [], b, st, l, _, hb, hS => by
    simpa using ⟨hS, hb⟩
  | f :: rest, b, st, l, hheap, hb, hS => by
    have hf : st.heap[b]? = some f := by
      have := hheap 0 (by simp)
      simpa using this
    obtain ⟨hS1, hb1, hkeep⟩ := concatOrAppend_sim st l b f hS hb hf
    have hheap1 : ∀ j, j < rest.length → (concatOrAppend st b).heap[b + 1 + j]? = rest[j]? := by
      intro j hj
      rw [hkeep _ (by omega)]
      have := hheap (j + 1) (by simp; omega)
      simpa [Nat.add_assoc, Nat.add_comm 1 j] using this
    obtain ⟨h1, h2, h3⟩ :=
      foldl_concatOrAppend_sim rest (b + 1) (concatOrAppend st b) (regList l f) hheap1 hb1 hS1
    simp only [List.length_cons, List.range'_succ, List.foldl_cons]
    refine ⟨h1, ?_, ?_⟩
    · intro q hq
      have := h2 q hq
      omega
    · rw [h3, concatOrAppend_heap_length]

/-- One pass: the files `Files` returned are merged in order. -/
theorem mergeFiles_sim (st : MergeState) (l files : List ResponseFile) (hS : Sim st l)
    (hb : ∀ q ∈ st.File, q < st.heap.length) :
    Sim (mergeFiles st files) (files.foldl regList l) ∧
      (∀ q ∈ (mergeFiles st files).File, q < (mergeFiles st files).heap.length) := by
  have hget : ∀ q ∈ st.File, (st.heap ++ files)[q]? = st.heap[q]? := fun q hq =>
    List.getElem?_append_left (hb q hq)
  have hS0 : Sim { st with heap := st.heap ++ files } l :=
    { emitted := by
        rw [← hS.emitted]
        exact List.map_congr_left hget
      nodup := by
        have hn := hS.nodup
        have : List.map (MergeState.nameAt { st with heap := st.heap ++ files }) st.File
            = List.map st.nameAt st.File :=
          List.map_congr_left (fun q hq => by simp only [MergeState.nameAt, hget q hq])
        rw [this]
        exact hn
      found := fun name val h => by
        obtain ⟨h1, h2⟩ := hS.found name val h
        exact ⟨h1, by simpa only [MergeState.nameAt, hget val h1] using h2⟩
      missing := hS.missing }
  have hheap : ∀ j, j < files.length →
      ({ st with heap := st.heap ++ files } : MergeState).heap[st.heap.length + j]? = files[j]? := by
    intro j _
    simp [List.getElem?_append_right]
  obtain ⟨h1, h2, h3⟩ :=
    foldl_concatOrAppend_sim files st.heap.length { st with heap := st.heap ++ files } l
      hheap hb hS0
  refine ⟨h1, ?_⟩
  intro q hq
  have := h2 q hq
  unfold mergeFiles
  rw [h3]
  simpa using this

/-- All passes: the merge state stands for the list merge of every file, in
the order the passes returned them. -/
theorem foldl_mergeFiles_sim :
    ∀ (passes : List (List ResponseFile)) (st : MergeState) (l : List ResponseFile),
      Sim st l → (∀ q ∈ st.File, q < st.heap.length) →
      Sim (passes.foldl mergeFiles st) (passes.flatten.foldl regList l)
  | [], _, _, hS, _ => by simpa using hS
  | files :: passes, st, l, hS, hb => by
    obtain ⟨h1, h2⟩ := mergeFiles_sim st l files hS hb
    simpa [List.foldl_append] using foldl_mergeFiles_sim passes _ _ h1 h2

theorem contentsOf_append (fs : List ResponseFile) (a : ResponseFile) (name : Bytes) :
    contentsOf (fs ++ [a]) name =
      if a.Name = name then contentsOf fs name ++ a.Content else contentsOf fs name := by
  unfold contentsOf
  by_cases h : a.Name = name <;> simp [List.filter_append, List.filter_cons, h]

theorem regList_names_of_mem (l : List ResponseFile) (a : ResponseFile) :
    (l.map (fun g => if g.Name = a.Name then { g with Content := g.Content ++ a.Content }
      else g)).map (fun g => g.Name) = l.map (fun g => g.Name) := by
  rw [List.map_map]
  apply List.map_congr_left
  intro g _
  simp only [Function.comp_apply]
  split_ifs <;> rfl

theorem firstIndex_le (name : Bytes) (fs : List ResponseFile) :
    firstIndex name fs ≤ fs.length := by
  induction fs with
  | nil => simp [firstIndex]
  | cons f fs ih =>
    simp only [firstIndex, List.length_cons]
    split_ifs <;> omega

theorem firstIndex_lt_of_mem (name : Bytes) (fs : List ResponseFile)
    (h : name ∈ fs.map (fun g => g.Name)) : firstIndex name fs < fs.length := by
  induction fs with
  | nil => simp at h
  | cons f fs ih =>
    simp only [firstIndex, List.length_cons]
    split_ifs with hf
    · omega
    · simp only [List.map_cons, List.mem_cons] at h
      rcases h with h | h
      · exact absurd h.symm hf
      · have := ih h
        omega

theorem firstIndex_append_of_mem (name : Bytes) (fs gs : List ResponseFile)
    (h : name ∈ fs.map (fun g => g.Name)) :
    firstIndex name (fs ++ gs) = firstIndex name fs := by
  induction fs with
  | nil => simp at h
  | cons f fs ih =>
    simp only [List.cons_append, firstIndex]
    split_ifs with hf
    · rfl
    · simp only [List.map_cons, List.mem_cons] at h
      rcases h with h | h
      · exact absurd h.symm hf
      · exact congrArg (· + 1) (ih h)

theorem firstIndex_append_of_not_mem (name : Bytes) (fs gs : List ResponseFile)
    (h : name ∉ fs.map (fun g => g.Name)) :
    firstIndex name (fs ++ gs) = fs.length + firstIndex name gs := by
  induction fs with
  | nil => simp
  | cons f fs ih =>
    simp only [List.map_cons, List.mem_cons, not_or] at h
    have hf : ¬ f.Name = name := fun hf => h.1 hf.symm
    have := ih h.2
    simp only [List.cons_append, firstIndex, hf, if_false, List.length_cons]
    change firstIndex name (fs ++ gs) + 1 = fs.length + 1 + firstIndex name gs
    omega

/-- What the list merge of `fs` is: one entry per distinct name, in the order
of first registration, each with the concatenation of the contents registered
under its name. -/
theorem regList_spec (fs : List ResponseFile) :
    ((fs.foldl regList []).map (fun g => g.Name)).Nodup ∧
    (∀ n, n ∈ (fs.foldl regList []).map (fun g => g.Name) ↔ n ∈ fs.map (fun g => g.Name)) ∧
    ((fs.foldl regList []).map (fun g => g.Name)).Pairwise
      (fun x y => firstIndex x fs < firstIndex y fs) ∧
    (∀ g ∈ fs.foldl regList [], g.Content = contentsOf fs g.Name) := by
  induction fs using List.reverseRecOn with
  | nil => simp
  | append_singleton fs a ih =>
    obtain ⟨hn, hm, hp, hc⟩ := ih
    rw [List.foldl_append, List.foldl_cons, List.foldl_nil]
    have hidx : ∀ x, x ∈ (fs.foldl regList []).map (fun g => g.Name) →
        firstIndex x (fs ++ [a]) = firstIndex x fs := fun x hx =>
      firstIndex_append_of_mem x fs [a] ((hm x).mp hx)
    have hp1 : ((fs.foldl regList []).map (fun g => g.Name)).Pairwise
        (fun x y => firstIndex x (fs ++ [a]) < firstIndex y (fs ++ [a])) :=
      hp.imp_of_mem (fun hx hy hxy => by rw [hidx _ hx, hidx _ hy]; exact hxy)
    by_cases hin : a.Name ∈ (fs.foldl regList []).map (fun g => g.Name)
    · have hreg : regList (fs.foldl regList []) a = (fs.foldl regList []).map (fun g =>
          if g.Name = a.Name then { g with Content := g.Content ++ a.Content } else g) := by
        simp only [regList, hin, if_true]
      rw [hreg, regList_names_of_mem]
      refine ⟨hn, ?_, hp1, ?_⟩
      · intro n
        rw [hm, List.map_append]
        simp only [List.mem_append, List.map_cons, List.map_nil, List.mem_singleton]
        constructor
        · exact Or.inl
        · rintro (h | rfl)
          · exact h
          · exact (hm _).mp hin
      · intro g hg
        obtain ⟨g0, hg0, rfl⟩ := List.mem_map.mp hg
        rw [contentsOf_append]
        by_cases hname : g0.Name = a.Name
        · simp only [hname, if_true]
          rw [hc g0 hg0, hname]
        · have hne : ¬ a.Name = g0.Name := fun h => hname h.symm
          simp only [hname, if_false, hne]
          exact hc g0 hg0
    · have hreg : regList (fs.foldl regList []) a = fs.foldl regList [] ++ [a] := by
        simp only [regList, hin, if_false]
      rw [hreg]
      have hnotfs : a.Name ∉ fs.map (fun g => g.Name) := fun h => hin ((hm _).mpr h)
      refine ⟨?_, ?_, ?_, ?_⟩
      · rw [List.map_append, List.nodup_append]
        exact ⟨hn, by simp, by simpa using hin⟩
      · intro n
        simp only [List.map_append, List.mem_append, hm]
      · rw [List.map_append, List.pairwise_append]
        refine ⟨hp1, by simp, ?_⟩
        intro x hx y hy
        simp only [List.map_cons, List.map_nil, List.mem_singleton] at hy
        subst hy
        rw [hidx x hx, firstIndex_append_of_not_mem _ _ _ hnotfs]
        have := firstIndex_lt_of_mem x fs ((hm x).mp hx)
        omega
      · intro g hg
        rw [contentsOf_append]
        rcases List.mem_append.mp hg with hg | hg
        · have hne : ¬ a.Name = g.Name := fun h =>
            hin (h ▸ List.mem_map.mpr ⟨g, hg, rfl⟩)
          simp only [hne, if_false]
          exact hc g hg
        · simp only [List.mem_singleton] at hg
          subst hg
          have hempty : contentsOf fs g.Name = [] := by
            unfold contentsOf
            have : fs.filter (fun f => f.Name = g.Name) = [] := by
              rw [List.filter_eq_nil_iff]
              intro f hf hfn
              exact hnotfs (List.mem_map.mpr ⟨f, hf, by simpa using hfn⟩)
            rw [this]
            rfl
          simp [hempty]

/-- C1: for every sequence of rendered files handed to `concatOrAppend`, pass
after pass in registration order, the emitted response list has exactly one
entry per distinct filename (the names are distinct and are exactly the
registered names), the entries stand in the order in which each filename was
first registered, and the content of each entry is the concatenation of the
contents of all files registered under its name, in registration order. Every
pointer of the response slice refers to an object. -/
theorem merge_first_registration_order (passes : List (List ResponseFile)) :
    (((passes.foldl mergeFiles MergeState.empty).emitted).map (fun g => g.Name)).Nodup ∧
    (∀ n, n ∈ ((passes.foldl mergeFiles MergeState.empty).emitted).map (fun g => g.Name) ↔
      n ∈ passes.flatten.map (fun g => g.Name)) ∧
    (((passes.foldl mergeFiles MergeState.empty).emitted).map (fun g => g.Name)).Pairwise
      (fun x y => firstIndex x passes.flatten < firstIndex y passes.flatten) ∧
    (∀ g ∈ (passes.foldl mergeFiles MergeState.empty).emitted,
      g.Content = contentsOf passes.flatten g.Name) ∧
    (passes.foldl mergeFiles MergeState.empty).emitted.length
      = (passes.foldl mergeFiles MergeState.empty).File.length := by
  have hS := foldl_mergeFiles_sim passes MergeState.empty [] Sim.empty
    (by simp [MergeState.empty])
  obtain ⟨h1, h2, h3, h4⟩ := regList_spec passes.flatten
  rw [hS.emitted_eq]
  refine ⟨h1, h2, h3, h4, ?_⟩
  have := congrArg List.length hS.emitted
  simpa using this.symm

/-- C1 on two passes: `a` then `b` in the first, `a` again in the second. One
entry per name, `a` first, and the content of `a` is both contents in order. -/
theorem merge_first_registration_order_witness :
    ([[{ Name := ascii "a", Content := ascii "1" }, { Name := ascii "b", Content := ascii "2" }],
      [{ Name := ascii "a", Content := ascii "3" }]].foldl mergeFiles MergeState.empty).emitted
      = [{ Name := ascii "a", Content := ascii "13" }, { Name := ascii "b", Content := ascii "2" }] ∧
    ((([[{ Name := ascii "a", Content := ascii "1" }, { Name := ascii "b", Content := ascii "2" }],
      [{ Name := ascii "a", Content := ascii "3" }]].foldl mergeFiles
        MergeState.empty).emitted).map (fun g => g.Name)).Nodup :=
  ⟨by decide,
   (merge_first_registration_order
      [[{ Name := ascii "a", Content := ascii "1" }, { Name := ascii "b", Content := ascii "2" }],
       [{ Name := ascii "a", Content := ascii "3" }]]).1⟩

/-! ## The path registration -/

theorem runPass_aborted (filesOf : Nat → GenericTemplateBasedEncoder → Option (List ResponseFile))
    (encs : List (GenericTemplateBasedEncoder × List Event)) (ms : MainState)
    (h : ms.aborted = true) : encs.foldl (runPass filesOf) ms = ms := by
  induction encs with
  | nil => rfl
  | cons enc encs ih =>
    simp only [List.foldl_cons]
    have : runPass filesOf ms enc = ms := by simp [runPass, h]
    rw [this, ih]

theorem mainLoop_eq_foldl (templateDir destinationDir : Bytes) (debug all : Bool)
    (filesOf : Nat → GenericTemplateBasedEncoder → Option (List ResponseFile))
    (protoFiles : List FileDescriptorProto) :
    mainLoop templateDir destinationDir debug all filesOf protoFiles =
      (encoders templateDir destinationDir debug all protoFiles).foldl (runPass filesOf)
        { pass := 0, events := [], merge := MergeState.empty, aborted := false } := by
  unfold mainLoop encoders
  generalize ({ pass := 0, events := [], merge := MergeState.empty, aborted := false }
    : MainState) = ms
  induction protoFiles generalizing ms with
  | nil => rfl
  | cons file rest ih =>
    simp only [List.foldl_cons, List.flatMap_cons, List.foldl_append]
    rw [ih]
    congr 1
    cases all with
    | true => simp
    | false => simp [List.foldl_map]

/-- The effects of the passes: those of the first `k` encoders, all of them
unless a pass ended the process. -/
theorem foldl_runPass_events
    (filesOf : Nat → GenericTemplateBasedEncoder → Option (List ResponseFile)) :
    ∀ (encs : List (GenericTemplateBasedEncoder × List Event)) (ms : MainState),
      ∃ k, k ≤ encs.length ∧
        (encs.foldl (runPass filesOf) ms).events
          = ms.events ++ (encs.take k).flatMap (fun enc => enc.2 ++ [Event.files enc.1]) ∧
        ((encs.foldl (runPass filesOf) ms).aborted = false → k = encs.length)
  | [], ms => ⟨0, by simp⟩
  | enc :: encs, ms => by
    by_cases hab : ms.aborted = true
    · refine ⟨0, by simp, ?_, ?_⟩
      · rw [runPass_aborted filesOf _ ms hab]
        simp
      · rw [runPass_aborted filesOf _ ms hab]
        intro h
        rw [h] at hab
        cases hab
    · obtain ⟨k, hk, hev, hfin⟩ := foldl_runPass_events filesOf encs (runPass filesOf ms enc)
      have hevs : (runPass filesOf ms enc).events = ms.events ++ enc.2 ++ [Event.files enc.1] := by
        have hab1 : ms.aborted = false := by simpa using hab
        unfold runPass
        simp only [hab1, Bool.false_eq_true, if_false]
        cases filesOf ms.pass enc.1 <;> rfl
      refine ⟨k + 1, by simp; omega, ?_, ?_⟩
      · simp only [List.foldl_cons, hev, hevs, List.take_succ_cons, List.flatMap_cons,
          List.append_assoc]
      · intro h
        simp only [List.foldl_cons] at h
        simp [hfin h]

theorem init_before_files :
    ∀ (encs : List GenericTemplateBasedEncoder) (pre post : List Event)
      (enc : GenericTemplateBasedEncoder),
      encs.flatMap (fun e => [Event.initPathMap e.file, Event.files e])
        = pre ++ Event.files enc :: post →
      Event.initPathMap enc.file ∈ pre
  | [], pre, post, enc, h => by
    simp at h
  | e :: es, pre, post, enc, h => by
    simp only [List.flatMap_cons, List.cons_append, List.nil_append] at h
    cases pre with
    | nil => simp at h
    | cons p pre1 =>
      simp only [List.cons_append, List.cons.injEq] at h
      obtain ⟨hp, h⟩ := h
      subst hp
      cases pre1 with
      | nil =>
        simp only [List.nil_append, List.cons.injEq, Event.files.injEq] at h
        rw [h.1]
        simp
      | cons p1 pre2 =>
        simp only [List.cons_append, List.cons.injEq] at h
        have := init_before_files es pre2 post enc h.2
        simp [this]

theorem encoders_events (templateDir destinationDir : Bytes) (debug all : Bool)
    (protoFiles : List FileDescriptorProto) :
    ∀ enc ∈ encoders templateDir destinationDir debug all protoFiles,
      enc.2 = [Event.initPathMap enc.1.file] := by
  intro enc henc
  simp only [encoders, List.mem_flatMap] at henc
  obtain ⟨file, _, h⟩ := henc
  cases all with
  | true =>
    simp only [if_true, List.mem_singleton] at h
    subst h
    rfl
  | false =>
    simp only [Bool.false_eq_true, if_false, List.mem_map] at h
    obtain ⟨service, _, rfl⟩ := h
    rfl

theorem initCalls_flatMap (encs : List GenericTemplateBasedEncoder) :
    initCalls (encs.flatMap (fun e => [Event.initPathMap e.file, Event.files e]))
      = encs.map (fun e => e.file) := by
  induction encs with
  | nil => rfl
  | cons e es ih =>
    rw [List.flatMap_cons]
    show e.file :: initCalls (es.flatMap (fun e => [Event.initPathMap e.file, Event.files e]))
      = (e :: es).map (fun e => e.file)
    rw [ih, List.map_cons]

theorem mainLoop_events (templateDir destinationDir : Bytes) (debug all : Bool)
    (filesOf : Nat → GenericTemplateBasedEncoder → Option (List ResponseFile))
    (protoFiles : List FileDescriptorProto) :
    ∃ k, k ≤ (encoders templateDir destinationDir debug all protoFiles).length ∧
      (mainLoop templateDir destinationDir debug all filesOf protoFiles).events =
        (((encoders templateDir destinationDir debug all protoFiles).take k).map
          Prod.fst).flatMap (fun e => [Event.initPathMap e.file, Event.files e]) ∧
      ((mainLoop templateDir destinationDir debug all filesOf protoFiles).aborted = false →
        k = (encoders templateDir destinationDir debug all protoFiles).length) := by
  rw [mainLoop_eq_foldl]
  obtain ⟨k, hk, hev, hfin⟩ := foldl_runPass_events filesOf
    (encoders templateDir destinationDir debug all protoFiles)
    { pass := 0, events := [], merge := MergeState.empty, aborted := false }
  refine ⟨k, hk, ?_, hfin⟩
  rw [hev]
  simp only [List.nil_append]
  have hmem : ∀ enc ∈ (encoders templateDir destinationDir debug all protoFiles).take k,
      enc.2 = [Event.initPathMap enc.1.file] := fun enc h =>
    encoders_events templateDir destinationDir debug all protoFiles enc (List.mem_of_mem_take h)
  generalize (encoders templateDir destinationDir debug all protoFiles).take k = es at hmem
  induction es with
  | nil => rfl
  | cons e es ih =>
    rw [List.flatMap_cons, List.map_cons, List.flatMap_cons,
      ih (fun enc h => hmem enc (List.mem_cons_of_mem _ h)), hmem e (List.mem_cons_self _ _)]
    rfl

/-- C8 (as stated, refuted): in per-service mode `InitPathMap` is called twice
for a schema file with two services and not at all for one without services,
in an invocation where no pass fails. -/
theorem initPathMap_not_once_per_file :
    demoFile.Service.length = 2 ∧ lonelyFile.Service.length = 0 ∧
    (mainLoop (ascii "t") (ascii ".") false false (fun _ _ => some [])
      [demoFile, lonelyFile]).aborted = false ∧
    initCalls (mainLoop (ascii "t") (ascii ".") false false (fun _ _ => some [])
      [demoFile, lonelyFile]).events = [demoFile, demoFile] ∧
    (mainLoop (ascii "t") (ascii ".") false false (fun _ _ => some [])
      [demoFile, lonelyFile]).events.count (Event.initPathMap demoFile) = 2 ∧
    (mainLoop (ascii "t") (ascii ".") false false (fun _ _ => some [])
      [demoFile, lonelyFile]).events.count (Event.initPathMap lonelyFile) = 0 := by
  decide

/-- C8 (amended): `InitPathMap` is called once by each encoder constructor,
before the `Files` of that encoder renders any template: in every invocation a
call of `Files` comes after an `InitPathMap` for the file of its encoder, and in
an invocation that no pass ends the calls of `InitPathMap` are, file after file,
one per schema file in whole-file mode and one per service of the file in
per-service mode. -/
theorem initPathMap_once_per_encoder (templateDir destinationDir : Bytes) (debug all : Bool)
    (filesOf : Nat → GenericTemplateBasedEncoder → Option (List ResponseFile))
    (protoFiles : List FileDescriptorProto) :
    (∀ pre post enc,
      (mainLoop templateDir destinationDir debug all filesOf protoFiles).events
        = pre ++ Event.files enc :: post →
      Event.initPathMap enc.file ∈ pre) ∧
    ((mainLoop templateDir destinationDir debug all filesOf protoFiles).aborted = false →
      initCalls (mainLoop templateDir destinationDir debug all filesOf protoFiles).events
        = protoFiles.flatMap (fun file =>
            List.replicate (if all then 1 else file.Service.length) file)) := by
  obtain ⟨k, _, hev, hfin⟩ :=
    mainLoop_events templateDir destinationDir debug all filesOf protoFiles
  constructor
  · intro pre post enc h
    rw [hev] at h
    exact init_before_files _ pre post enc h
  · intro hab
    rw [hev, initCalls_flatMap, hfin hab, List.take_length, List.map_map]
    unfold encoders
    rw [List.map_flatMap]
    congr 1
    funext file
    cases all with
    | true => rfl
    | false =>
      simp only [Bool.false_eq_true, if_false, List.map_map]
      rw [List.eq_replicate_iff]
      constructor
      · simp
      · intro b hb
        obtain ⟨_, _, rfl⟩ := List.mem_map.mp hb
        rfl

/-- C8 (amended) in whole-file mode on two schema files: one `InitPathMap` per
file, each before the `Files` of its encoder. -/
theorem initPathMap_once_per_encoder_witness :
    (mainLoop (ascii "t") (ascii ".") false true (fun _ _ => some [])
      [demoFile, lonelyFile]).aborted = false ∧
    initCalls (mainLoop (ascii "t") (ascii ".") false true (fun _ _ => some [])
      [demoFile, lonelyFile]).events
      = [demoFile, lonelyFile].flatMap (fun file =>
          List.replicate (if true = true then 1 else file.Service.length) file) :=
  ⟨by decide,
   (initPathMap_once_per_encoder (ascii "t") (ascii ".") false true (fun _ _ => some [])
      [demoFile, lonelyFile]).2 (by decide)⟩

/-! ## The concurrent fan-out and fan-in -/

/-- Every enabled step of `FilesState.step` is one of the transitions. -/
theorem step_sound {Tmpl : Type} (w : World Tmpl) (e : GenericTemplateBasedEncoder)
    (s s1 : FilesState) (c : Choice) (h : s.step w e c = some s1) : Transition w e s s1 := by
  cases c with
  | run k =>
    simp only [FilesState.step] at h
    split_ifs at h with hp
    have hp : s.panicked = false := by simpa using hp
    split at h
    · cases h
    · rename_i t ts hk
      cases ts with
      | launched =>
        simp only [runTask] at h
        split at h
        · rename_i c tf hb
          cases h
          exact .buildOk s k t c tf hp hk hb
        · rename_i err hb
          cases h
          exact .buildErr s k t err hp hk hb
        · rename_i hb
          cases h
          exact .buildPanic s k t hp hk hb
      | built c tf =>
        simp only [runTask] at h
        split_ifs at h with h1 h2 h3 h4 h5
        · cases h
          exact .seeErr s k t c tf hp hk h1
        · cases h
          exact .slicePanic s k t c tf hp hk (by simpa using h1) h2
        · cases h
          subst h3
          exact .sendIgnore s k t tf hp hk (by simpa using h1) (by omega) h4
        · cases h
          exact .sendResult s k t c tf hp hk (by simpa using h1) (by omega) h3 h5
      | failing =>
        simp only [runTask] at h
        split_ifs at h with h1
        cases h
        exact .sendErr s k t hp hk h1
      | done => simp [runTask] at h
  | recvIgnore =>
    simp only [FilesState.step] at h
    split_ifs at h with hp
    simp only [not_or, not_not] at hp
    split at h
    · cases h
    · rename_i x rest hq
      cases h
      exact .recvIgnore s x rest (by simpa using hp.1) hp.2 hq
  | recvResult =>
    simp only [FilesState.step] at h
    split_ifs at h with hp
    simp only [not_or, not_not] at hp
    split at h
    · cases h
    · rename_i f rest hq
      cases h
      exact .recvResult s f rest (by simpa using hp.1) hp.2 hq
  | recvErr =>
    simp only [FilesState.step] at h
    split_ifs at h with hp
    simp only [not_or, not_not] at hp
    split at h
    · cases h
    · rename_i err rest hq
      cases h
      exact .recvErr s err rest (by simpa using hp.1) hp.2 hq

/-- Induction over the states a schedule reaches. -/
theorem exec_induction {Tmpl : Type} (w : World Tmpl) (e : GenericTemplateBasedEncoder)
    (P : FilesState → Prop) (hstep : ∀ s s1, P s → Transition w e s s1 → P s1) :
    ∀ (sched : List Choice) (s0 s : FilesState), P s0 → s0.exec w e sched = some s → P s
  | [], s0, s, h0, h => by
    simp only [FilesState.exec, Option.some.injEq] at h
    exact h ▸ h0
  | c :: cs, s0, s, h0, h => by
    simp only [FilesState.exec] at h
    split at h
    · cases h
    · rename_i s1 hs1
      exact exec_induction w e P hstep cs s1 s (hstep s0 s1 h0 (step_sound w e s0 s1 c hs1)) h

theorem sum_map_set {α : Type} (f : α → Nat) :
    ∀ (l : List α) (k : Nat) (old x : α), l[k]? = some old →
      ((l.set k x).map f).sum + f old = (l.map f).sum + f x
  | [], k, old, x, h => by simp at h
  | a :: l, 0, old, x, h => by
    simp only [List.getElem?_cons_zero, Option.some.injEq] at h
    subst h
    simp only [List.set_cons_zero, List.map_cons, List.sum_cons]
    omega
  | a :: l, k + 1, old, x, h => by
    simp only [List.getElem?_cons_succ] at h
    have := sum_map_set f l k old x h
    simp only [List.set_cons_succ, List.map_cons, List.sum_cons]
    omega

theorem flatMap_set_perm {α β : Type} (g : α → List β) :
    ∀ (l : List α) (k : Nat) (old x : α), l[k]? = some old →
      ((l.set k x).flatMap g ++ g old).Perm (l.flatMap g ++ g x)
  | [], k, old, x, h => by simp at h
  | a :: l, 0, old, x, h => by
    simp only [List.getElem?_cons_zero, Option.some.injEq] at h
    subst h
    simp only [List.set_cons_zero, List.flatMap_cons]
    have h1 : (g x ++ l.flatMap g ++ g a).Perm (g x ++ (g a ++ l.flatMap g)) := by
      rw [List.append_assoc]
      exact List.Perm.append_left _ List.perm_append_comm
    have h2 : (g x ++ (g a ++ l.flatMap g)).Perm (g a ++ l.flatMap g ++ g x) :=
      List.perm_append_comm
    exact h1.trans h2
  | a :: l, k + 1, old, x, h => by
    simp only [List.getElem?_cons_succ] at h
    have := flatMap_set_perm g l k old x h
    simp only [List.set_cons_succ, List.flatMap_cons, List.append_assoc]
    exact List.Perm.append_left _ this

theorem map_fst_set {α β : Type} :
    ∀ (l : List (α × β)) (k : Nat) (t : α) (old x : β), l[k]? = some (t, old) →
      (l.set k (t, x)).map Prod.fst = l.map Prod.fst
  | [], k, t, old, x, h => by simp at h
  | a :: l, 0, t, old, x, h => by
    simp only [List.getElem?_cons_zero, Option.some.injEq] at h
    subst h
    rfl
  | a :: l, k + 1, t, old, x, h => by
    simp only [List.getElem?_cons_succ] at h
    simp only [List.set_cons_succ, List.map_cons, map_fst_set l k t old x h]

theorem getElem?_lt {α : Type} (l : List α) (k : Nat) (a : α) (h : l[k]? = some a) :
    k < l.length := by
  by_contra hc
  rw [List.getElem?_eq_none (by omega)] at h
  cases h

theorem getElem?_set_cases {α : Type} (l : List α) (k j : Nat) (x a : α)
    (h : (l.set k x)[j]? = some a) : a = x ∨ l[j]? = some a := by
  rw [List.getElem?_set] at h
  split_ifs at h with h1 h2
  · exact Or.inl (Option.some.inj h).symm
  · exact Or.inr h

theorem doneCount_set (tasks : List (Bytes × TaskState)) (k : Nat) (t : Bytes)
    (old new : TaskState) (hk : tasks[k]? = some (t, old)) :
    doneCount (tasks.set k (t, new)) + (if old = .done then 1 else 0)
      = doneCount tasks + (if new = .done then 1 else 0) :=
  sum_map_set (fun t : Bytes × TaskState => if t.2 = .done then 1 else 0) tasks k _ _ hk

theorem failDone_set {Tmpl : Type} (w : World Tmpl) (e : GenericTemplateBasedEncoder)
    (tasks : List (Bytes × TaskState)) (k : Nat) (t : Bytes)
    (old new : TaskState) (hk : tasks[k]? = some (t, old)) :
    failDone w e (tasks.set k (t, new))
        + (if old = .done ∧ failedRender w e t = true then 1 else 0)
      = failDone w e tasks + (if new = .done ∧ failedRender w e t = true then 1 else 0) :=
  sum_map_set
    (fun t : Bytes × TaskState => if t.2 = .done ∧ failedRender w e t.1 = true then 1 else 0)
    tasks k _ _ hk

theorem doneCount_init (tmpls : List Bytes) :
    doneCount (tmpls.map (fun t => (t, TaskState.launched))) = 0 := by
  induction tmpls with
  | nil => rfl
  | cons t ts ih =>
    simp only [doneCount, List.map_cons, List.sum_cons] at ih ⊢
    simpa using ih

theorem failDone_init {Tmpl : Type} (w : World Tmpl) (e : GenericTemplateBasedEncoder)
    (tmpls : List Bytes) : failDone w e (tmpls.map (fun t => (t, TaskState.launched))) = 0 := by
  induction tmpls with
  | nil => rfl
  | cons t ts ih =>
    simp only [failDone, List.map_cons, List.sum_cons] at ih ⊢
    simpa using ih

theorem Inv.init {Tmpl : Type} (w : World Tmpl) (e : GenericTemplateBasedEncoder)
    (tmpls : List Bytes) : Inv w e tmpls (FilesState.init tmpls) where
  names := by simp [FilesState.init, Function.comp_def]
  count := fun _ => by
    simp only [FilesState.init, doneCount_init, List.length_nil]
  locals := fun k t c tf h => by
    simp only [FilesState.init, List.getElem?_map] at h
    cases hk : tmpls[k]? <;> simp [hk] at h
  failed := fun _ => by
    simp only [FilesState.init, failDone_init, List.length_nil, Nat.le_refl]

theorem Inv.step {Tmpl : Type} (w : World Tmpl) (e : GenericTemplateBasedEncoder)
    (tmpls : List Bytes) (s s1 : FilesState) (hI : Inv w e tmpls s)
    (htr : Transition w e s s1) : Inv w e tmpls s1 := by
  cases htr with
  | buildOk k t c tf hp hk hb =>
    have hd := doneCount_set s.tasks k t _ (.built c tf) hk
    have hf := failDone_set w e s.tasks k t _ (.built c tf) hk
    simp only [reduceCtorEq, if_false, if_true, false_and, true_and, Nat.add_zero] at hd hf
    refine ⟨?_, ?_, ?_, ?_⟩
    · simpa [map_fst_set _ _ _ _ _ hk] using hI.names
    · intro _
      have := hI.count hp
      simp only [List.length_append, List.length_singleton] at this ⊢
      omega
    · intro j t1 c1 tf1 hj
      rcases getElem?_set_cases _ _ _ _ _ hj with h | h
      · cases h
        exact Or.inl hb
      · exact hI.locals j t1 c1 tf1 h
    · intro _
      have := hI.failed hp
      simp only [List.length_append, List.length_singleton] at this ⊢
      omega
  | buildErr k t err hp hk hb =>
    have hd := doneCount_set s.tasks k t _ (.built [] []) hk
    have hf := failDone_set w e s.tasks k t _ (.built [] []) hk
    simp only [reduceCtorEq, if_false, if_true, false_and, true_and, Nat.add_zero] at hd hf
    refine ⟨?_, ?_, ?_, ?_⟩
    · simpa [map_fst_set _ _ _ _ _ hk] using hI.names
    · intro _
      have := hI.count hp
      simp only [List.length_append, List.length_singleton] at this ⊢
      omega
    · intro j t1 c1 tf1 hj
      rcases getElem?_set_cases _ _ _ _ _ hj with h | h
      · cases h
        exact Or.inr ⟨by simp [failedRender, hb], rfl⟩
      · exact hI.locals j t1 c1 tf1 h
    · intro _
      have := hI.failed hp
      simp only [List.length_append, List.length_singleton] at this ⊢
      omega
  | buildPanic k t hp hk hb =>
    exact ⟨hI.names, fun h => by simp at h, hI.locals, fun h => by simp at h⟩
  | seeErr k t c tf hp hk herr =>
    have hd := doneCount_set s.tasks k t _ .failing hk
    have hf := failDone_set w e s.tasks k t _ .failing hk
    simp only [reduceCtorEq, if_false, if_true, false_and, true_and, Nat.add_zero] at hd hf
    refine ⟨?_, ?_, ?_, ?_⟩
    · simpa [map_fst_set _ _ _ _ _ hk] using hI.names
    · intro _
      have := hI.count hp
      simp only [List.length_append, List.length_singleton] at this ⊢
      omega
    · intro j t1 c1 tf1 hj
      rcases getElem?_set_cases _ _ _ _ _ hj with h | h
      · cases h
      · exact hI.locals j t1 c1 tf1 h
    · intro _
      have := hI.failed hp
      simp only [List.length_append, List.length_singleton] at this ⊢
      omega
  | slicePanic k t c tf hp hk herr hlen =>
    exact ⟨hI.names, fun h => by simp at h, hI.locals, fun h => by simp at h⟩
  | sendIgnore k t tf hp hk herr hlen hcap =>
    have hnf : failedRender w e t = false := by
      rcases hI.locals k t _ tf hk with h | ⟨_, h⟩
      · simp [failedRender, h]
      · subst h
        simp [tmplSuffix] at hlen
    have hd := doneCount_set s.tasks k t _ .done hk
    have hf := failDone_set w e s.tasks k t _ .done hk
    simp only [reduceCtorEq, if_false, if_true, false_and, true_and, Nat.add_zero] at hd hf
    refine ⟨?_, ?_, ?_, ?_⟩
    · simpa [map_fst_set _ _ _ _ _ hk] using hI.names
    · intro _
      have := hI.count hp
      simp only [List.length_append, List.length_singleton] at this ⊢
      omega
    · intro j t1 c1 tf1 hj
      rcases getElem?_set_cases _ _ _ _ _ hj with h | h
      · cases h
      · exact hI.locals j t1 c1 tf1 h
    · intro _
      have := hI.failed hp
      simp only [List.length_append, List.length_singleton] at this ⊢
      simp only [hnf, Bool.false_eq_true, and_false, if_false, Nat.add_zero] at hf
      omega
  | sendResult k t c tf hp hk herr hlen hc hcap =>
    have hnf : failedRender w e t = false := by
      rcases hI.locals k t _ tf hk with h | ⟨_, h⟩
      · simp [failedRender, h]
      · subst h
        simp [tmplSuffix] at hlen
    have hd := doneCount_set s.tasks k t _ .done hk
    have hf := failDone_set w e s.tasks k t _ .done hk
    simp only [reduceCtorEq, if_false, if_true, false_and, true_and, Nat.add_zero] at hd hf
    refine ⟨?_, ?_, ?_, ?_⟩
    · simpa [map_fst_set _ _ _ _ _ hk] using hI.names
    · intro _
      have := hI.count hp
      simp only [List.length_append, List.length_singleton] at this ⊢
      omega
    · intro j t1 c1 tf1 hj
      rcases getElem?_set_cases _ _ _ _ _ hj with h | h
      · cases h
      · exact hI.locals j t1 c1 tf1 h
    · intro _
      have := hI.failed hp
      simp only [List.length_append, List.length_singleton] at this ⊢
      simp only [hnf, Bool.false_eq_true, and_false, if_false, Nat.add_zero] at hf
      omega
  | sendErr k t hp hk hcap =>
    have hd := doneCount_set s.tasks k t _ .done hk
    have hf := failDone_set w e s.tasks k t _ .done hk
    simp only [reduceCtorEq, if_false, if_true, false_and, true_and, Nat.add_zero] at hd hf
    refine ⟨?_, ?_, ?_, ?_⟩
    · simpa [map_fst_set _ _ _ _ _ hk] using hI.names
    · intro _
      have := hI.count hp
      simp only [List.length_append, List.length_singleton] at this ⊢
      omega
    · intro j t1 c1 tf1 hj
      rcases getElem?_set_cases _ _ _ _ _ hj with h | h
      · cases h
      · exact hI.locals j t1 c1 tf1 h
    · intro _
      have := hI.failed hp
      simp only [List.length_append, List.length_singleton] at this ⊢
      split_ifs at hf <;> omega
  | recvIgnore x rest hp hi hq =>
    refine ⟨hI.names, ?_, hI.locals, hI.failed⟩
    intro _
    have := hI.count hp
    simp only [hq, List.length_cons] at this
    simp only []
    omega
  | recvResult f rest hp hi hq =>
    refine ⟨hI.names, ?_, hI.locals, hI.failed⟩
    intro _
    have := hI.count hp
    simp only [hq, List.length_cons] at this
    simp only []
    omega
  | recvErr err rest hp hi hq =>
    exact ⟨hI.names, fun h => by simp at h, hI.locals, fun h => by simp at h⟩

theorem Inv.exec {Tmpl : Type} (w : World Tmpl) (e : GenericTemplateBasedEncoder)
    (tmpls : List Bytes) (sched : List Choice) (s : FilesState)
    (h : (FilesState.init tmpls).exec w e sched = some s) : Inv w e tmpls s :=
  exec_induction w e (Inv w e tmpls) (fun s s1 hI htr => Inv.step w e tmpls s s1 hI htr)
    sched _ s (Inv.init w e tmpls) h

theorem Inv.length {Tmpl : Type} {w : World Tmpl} {e : GenericTemplateBasedEncoder}
    {tmpls : List Bytes} {s : FilesState} (hI : Inv w e tmpls s) :
    s.length = tmpls.length := by
  have := congrArg List.length hI.names
  simpa [FilesState.length] using this

theorem doneCount_le (l : List (Bytes × TaskState)) : doneCount l ≤ l.length := by
  induction l with
  | nil => simp [doneCount]
  | cons a l ih =>
    simp only [doneCount, List.map_cons, List.sum_cons, List.length_cons] at ih ⊢
    split_ifs <;> omega

theorem exists_not_done (l : List (Bytes × TaskState)) (h : doneCount l < l.length) :
    ∃ (k : Nat) (t : Bytes) (ts : TaskState), l[k]? = some (t, ts) ∧ ts ≠ TaskState.done := by
  induction l with
  | nil => simp [doneCount] at h
  | cons a l ih =>
    by_cases ha : a.2 = .done
    · have h1 : doneCount l < l.length := by
        simp only [doneCount, List.map_cons, List.sum_cons, ha, if_true, List.length_cons] at h ⊢
        omega
      obtain ⟨k, t, ts, hk, hts⟩ := ih h1
      exact ⟨k + 1, t, ts, by simpa using hk, hts⟩
    · exact ⟨0, a.1, a.2, by simp, ha⟩

theorem all_done_of_doneCount (l : List (Bytes × TaskState)) (h : doneCount l = l.length) :
    ∀ x ∈ l, x.2 = .done := by
  induction l with
  | nil => simp
  | cons a l ih =>
    have hle := doneCount_le l
    simp only [doneCount, List.map_cons, List.sum_cons, List.length_cons] at h hle
    intro x hx
    rcases List.mem_cons.mp hx with rfl | hx
    · by_contra hne
      simp only [hne, if_false] at h
      omega
    · apply ih _ x hx
      simp only [doneCount]
      split_ifs at h <;> omega

/-- Every transition uses up fuel: a schedule cannot go on for ever. -/
theorem Transition.fuel_lt {Tmpl : Type} {w : World Tmpl} {e : GenericTemplateBasedEncoder}
    {s s1 : FilesState} (htr : Transition w e s s1) : s1.fuel < s.fuel := by
  have hw := fun (k : Nat) (t : Bytes) (old new : TaskState) (hk : s.tasks[k]? = some (t, old)) =>
    sum_map_set (fun t : Bytes × TaskState => t.2.weight) s.tasks k (t, old) (t, new) hk
  cases htr with
  | buildOk k t c tf hp hk hb =>
    have := hw k t _ (.built c tf) hk
    simp only [FilesState.fuel, FilesState.length, List.length_set, hp, TaskState.weight] at this ⊢
    omega
  | buildErr k t err hp hk hb =>
    have := hw k t _ (.built [] []) hk
    simp only [FilesState.fuel, FilesState.length, List.length_set, hp, TaskState.weight] at this ⊢
    omega
  | buildPanic k t hp hk hb =>
    simp [FilesState.fuel, FilesState.length, hp]
  | seeErr k t c tf hp hk herr =>
    have := hw k t _ .failing hk
    simp only [FilesState.fuel, FilesState.length, List.length_set, hp, TaskState.weight] at this ⊢
    omega
  | slicePanic k t c tf hp hk herr hlen =>
    simp [FilesState.fuel, FilesState.length, hp]
  | sendIgnore k t tf hp hk herr hlen hcap =>
    have := hw k t _ .done hk
    simp only [FilesState.fuel, FilesState.length, List.length_set, hp, TaskState.weight] at this ⊢
    omega
  | sendResult k t c tf hp hk herr hlen hc hcap =>
    have := hw k t _ .done hk
    simp only [FilesState.fuel, FilesState.length, List.length_set, hp, TaskState.weight] at this ⊢
    omega
  | sendErr k t hp hk hcap =>
    have := hw k t _ .done hk
    simp only [FilesState.fuel, FilesState.length, List.length_set, hp, TaskState.weight] at this ⊢
    omega
  | recvIgnore x rest hp hi hq =>
    simp only [FilesState.fuel, FilesState.length, hp] at hi ⊢
    omega
  | recvResult f rest hp hi hq =>
    simp only [FilesState.fuel, FilesState.length, hp] at hi ⊢
    omega
  | recvErr err rest hp hi hq =>
    simp only [FilesState.fuel, FilesState.length, hp] at hi ⊢
    simp

theorem fuel_init (tmpls : List Bytes) : (FilesState.init tmpls).fuel = 4 * tmpls.length + 1 := by
  have : ∀ l : List Bytes,
      ((l.map (fun t => (t, TaskState.launched))).map (fun t => t.2.weight)).sum = 3 * l.length := by
    intro l
    induction l with
    | nil => rfl
    | cons a l ih =>
      simp only [List.map_cons, List.sum_cons, List.length_cons, ih]
      show 3 + 3 * l.length = 3 * (l.length + 1)
      omega
  simp only [FilesState.fuel, FilesState.init, FilesState.length, this, List.length_map]
  simp
  omega

/-- A schedule that can be run is no longer than the fuel of its first state. -/
theorem exec_length_le {Tmpl : Type} (w : World Tmpl) (e : GenericTemplateBasedEncoder) :
    ∀ (sched : List Choice) (s0 s : FilesState), s0.exec w e sched = some s →
      sched.length + s.fuel ≤ s0.fuel
  | [], s0, s, h => by
    simp only [FilesState.exec, Option.some.injEq] at h
    simp [h]
  | c :: cs, s0, s, h => by
    simp only [FilesState.exec] at h
    split at h
    · cases h
    · rename_i s1 hs1
      have h1 := exec_length_le w e cs s1 s h
      have h2 := (step_sound w e s0 s1 c hs1).fuel_lt
      simp only [List.length_cons]
      omega

/-- While the collector has outcomes to wait for and no panic has occurred,
some step is enabled: the collector can receive, or a goroutine can run. -/
theorem Inv.progress {Tmpl : Type} (w : World Tmpl) (e : GenericTemplateBasedEncoder)
    (tmpls : List Bytes) (s : FilesState) (hI : Inv w e tmpls s)
    (hp : s.panicked = false) (hi : s.i < s.length) :
    ∃ c s1, s.step w e c = some s1 := by
  cases hq1 : s.ignoreChan with
  | cons x rest =>
    refine ⟨.recvIgnore, ?_⟩
    simp [FilesState.step, hp, hi, hq1]
  | nil =>
    cases hq2 : s.resultChan with
    | cons f rest =>
      refine ⟨.recvResult, ?_⟩
      simp [FilesState.step, hp, hi, hq2]
    | nil =>
      cases hq3 : s.errChan with
      | cons err rest =>
        refine ⟨.recvErr, ?_⟩
        simp [FilesState.step, hp, hi, hq3]
      | nil =>
        have hc := hI.count hp
        simp only [hq1, hq2, hq3, List.length_nil, Nat.add_zero] at hc
        obtain ⟨k, t, ts, hk, hts⟩ := exists_not_done s.tasks
          (by simp only [FilesState.length] at hi; omega)
        have hpos : 0 < s.length := by omega
        refine ⟨.run k, ?_⟩
        simp only [FilesState.step, hp, Bool.false_eq_true, if_false, hk]
        cases ts with
        | launched =>
          simp only [runTask]
          split <;> exact ⟨_, rfl⟩
        | built c tf =>
          simp only [runTask, hq1, hq2, List.length_nil, hpos, if_true]
          split_ifs <;> exact ⟨_, rfl⟩
        | failing =>
          simp only [runTask, hq3, List.length_nil, hpos, if_true]
          exact ⟨_, rfl⟩
        | done => exact absurd rfl hts

theorem buildContent_tf_length {Tmpl : Type} (w : World Tmpl)
    (e : GenericTemplateBasedEncoder) (t c tf : Bytes)
    (h : buildContent w e t = .ok (c, tf)) : tmplSuffix.length ≤ tf.length := by
  obtain ⟨ast, name, _, _, htf⟩ := buildContent_ok w e t c tf h
  have h1 := Dir_length_pos ast.Filename
  have h2 := Base_length_pos name
  have h3 := Base_length_pos ast.Filename
  have h5 : tmplSuffix.length = 5 := rfl
  rw [htf, derivedPath_length]
  omega

theorem mem_of_getElem?_task (tmpls : List Bytes) (tasks : List (Bytes × TaskState))
    (hn : tasks.map Prod.fst = tmpls) (k : Nat) (t : Bytes) (ts : TaskState)
    (hk : tasks[k]? = some (t, ts)) : t ∈ tmpls := by
  rw [← hn]
  exact List.mem_map.mpr ⟨(t, ts), List.getElem?_mem hk, rfl⟩

theorem Good.at_init {Tmpl : Type} (w : World Tmpl) (e : GenericTemplateBasedEncoder)
    (tmpls : List Bytes) : Good w e tmpls (FilesState.init tmpls) where
  calm := rfl
  noErr := rfl
  noErrSent := rfl
  noFailing := fun k t h => by
    simp only [FilesState.init, List.getElem?_map] at h
    cases hk : tmpls[k]? <;> simp [hk] at h
  perm := by
    simp only [FilesState.init, List.nil_append, expectedFiles]
    rw [List.flatMap_map]
    exact List.Perm.refl _

theorem pending_set_same {Tmpl : Type} (w : World Tmpl) (e : GenericTemplateBasedEncoder)
    (tasks : List (Bytes × TaskState)) (k : Nat) (t : Bytes) (old new : TaskState)
    (hk : tasks[k]? = some (t, old))
    (hsame : pendingOf w e (t, old) = pendingOf w e (t, new)) :
    ((tasks.set k (t, new)).flatMap (pendingOf w e)).Perm (tasks.flatMap (pendingOf w e)) := by
  have := flatMap_set_perm (pendingOf w e) tasks k (t, old) (t, new) hk
  rw [hsame] at this
  exact (List.perm_append_right_iff _).mp this

theorem Good.preserved {Tmpl : Type} (w : World Tmpl) (e : GenericTemplateBasedEncoder)
    (tmpls : List Bytes) (hall : ∀ t ∈ tmpls, ∃ c tf, buildContent w e t = .ok (c, tf))
    (s s1 : FilesState) (hI : Inv w e tmpls s) (hG : Good w e tmpls s)
    (htr : Transition w e s s1) : Good w e tmpls s1 := by
  have hok : ∀ (k : Nat) (t : Bytes) (ts : TaskState), s.tasks[k]? = some (t, ts) →
      ∃ c tf, buildContent w e t = .ok (c, tf) := fun k t ts hk =>
    hall t (mem_of_getElem?_task tmpls s.tasks hI.names k t ts hk)
  have hloc : ∀ (k : Nat) (t c tf : Bytes), s.tasks[k]? = some (t, TaskState.built c tf) →
      buildContent w e t = .ok (c, tf) := by
    intro k t c tf hk
    rcases hI.locals k t c tf hk with h | ⟨h, _⟩
    · exact h
    · obtain ⟨c1, tf1, h1⟩ := hok k t _ hk
      simp [failedRender, h1] at h
  cases htr with
  | buildOk k t c tf hp hk hb =>
    refine ⟨hp, rfl, hG.noErrSent, ?_, ?_⟩
    · intro j t1 hj
      rcases getElem?_set_cases _ _ _ _ _ hj with h | h
      · cases h
      · exact hG.noFailing j t1 h
    · refine List.Perm.trans ?_ hG.perm
      exact List.Perm.append_left _
        (pending_set_same w e s.tasks k t _ _ hk (by simp [pendingOf]))
  | buildErr k t err hp hk hb =>
    obtain ⟨c1, tf1, h1⟩ := hok k t _ hk
    rw [h1] at hb
    cases hb
  | buildPanic k t hp hk hb =>
    obtain ⟨c1, tf1, h1⟩ := hok k t _ hk
    rw [h1] at hb
    cases hb
  | seeErr k t c tf hp hk herr => exact absurd hG.noErr herr
  | slicePanic k t c tf hp hk herr hlen =>
    have := buildContent_tf_length w e t c tf (hloc k t c tf hk)
    omega
  | sendIgnore k t tf hp hk herr hlen hcap =>
    refine ⟨hp, hG.noErr, hG.noErrSent, ?_, ?_⟩
    · intro j t1 hj
      rcases getElem?_set_cases _ _ _ _ _ hj with h | h
      · cases h
      · exact hG.noFailing j t1 h
    · refine List.Perm.trans ?_ hG.perm
      exact List.Perm.append_left _
        (pending_set_same w e s.tasks k t _ _ hk
          (by simp [pendingOf, hloc k t [] tf hk, fileOf]))
  | sendResult k t c tf hp hk herr hlen hc hcap =>
    refine ⟨hp, hG.noErr, hG.noErrSent, ?_, ?_⟩
    · intro j t1 hj
      rcases getElem?_set_cases _ _ _ _ _ hj with h | h
      · cases h
      · exact hG.noFailing j t1 h
    · refine List.Perm.trans ?_ hG.perm
      have hset := flatMap_set_perm (pendingOf w e) s.tasks k (t, .built c tf) (t, .done) hk
      have hold : pendingOf w e (t, .built c tf)
          = [{ Content := c, Name := tf.take (tf.length - tmplSuffix.length) }] := by
        simp [pendingOf, hloc k t c tf hk, fileOf, hc]
      have hnew : pendingOf w e (t, TaskState.done) = [] := by simp [pendingOf]
      rw [hold, hnew, List.append_nil] at hset
      simp only [List.append_assoc]
      refine List.Perm.append_left _ (List.Perm.append_left _ ?_)
      exact List.perm_append_comm.trans hset
  | sendErr k t hp hk hcap => exact absurd hk (hG.noFailing k t)
  | recvIgnore x rest hp hi hq =>
    exact ⟨hp, hG.noErr, hG.noErrSent, hG.noFailing, hG.perm⟩
  | recvResult f rest hp hi hq =>
    refine ⟨hp, hG.noErr, hG.noErrSent, hG.noFailing, ?_⟩
    have := hG.perm
    rw [hq] at this
    simpa using this
  | recvErr err rest hp hi hq =>
    rw [hG.noErrSent] at hq
    cases hq

/-- When the collector loop is over without a panic, it has consumed one
outcome per goroutine, every goroutine has returned and the channels are empty. -/
theorem Inv.at_return {Tmpl : Type} {w : World Tmpl} {e : GenericTemplateBasedEncoder}
    {tmpls : List Bytes} {s : FilesState} (hI : Inv w e tmpls s)
    (hp : s.panicked = false) (hi : ¬ s.i < s.length) :
    s.i = tmpls.length ∧ (∀ x ∈ s.tasks, x.2 = TaskState.done) ∧
      s.errChan = [] ∧ s.ignoreChan = [] ∧ s.resultChan = [] := by
  have hc := hI.count hp
  have hle := doneCount_le s.tasks
  have hlen := hI.length
  simp only [FilesState.length] at hi hlen
  refine ⟨by omega, all_done_of_doneCount _ (by omega), ?_, ?_, ?_⟩ <;>
    exact List.length_eq_zero.mp (by omega)

theorem Inv.i_le {Tmpl : Type} {w : World Tmpl} {e : GenericTemplateBasedEncoder}
    {tmpls : List Bytes} {s : FilesState} (hI : Inv w e tmpls s)
    (hp : s.panicked = false) : s.i ≤ tmpls.length := by
  have hc := hI.count hp
  have hle := doneCount_le s.tasks
  have hlen := hI.length
  simp only [FilesState.length] at hlen
  omega

theorem pending_all_done {Tmpl : Type} (w : World Tmpl) (e : GenericTemplateBasedEncoder)
    (l : List (Bytes × TaskState)) (h : ∀ x ∈ l, x.2 = TaskState.done) :
    l.flatMap (pendingOf w e) = [] := by
  induction l with
  | nil => rfl
  | cons a l ih =>
    rw [List.flatMap_cons, ih (fun x hx => h x (List.mem_cons_of_mem _ hx))]
    simp [pendingOf, h a (List.mem_cons_self _ _)]

theorem expectedFiles_length {Tmpl : Type} (w : World Tmpl) (e : GenericTemplateBasedEncoder)
    (tmpls : List Bytes) (hall : ∀ t ∈ tmpls, ∃ c tf, buildContent w e t = .ok (c, tf)) :
    (expectedFiles w e tmpls).length + emptyRenders w e tmpls = tmpls.length := by
  induction tmpls with
  | nil => rfl
  | cons t ts ih =>
    have ih1 := ih (fun t1 h1 => hall t1 (List.mem_cons_of_mem _ h1))
    obtain ⟨c, tf, hb⟩ := hall t (List.mem_cons_self _ _)
    simp only [expectedFiles, emptyRenders, List.flatMap_cons, List.length_append,
      List.filter_cons, hb, fileOf, List.length_cons] at ih1 ⊢
    by_cases hc : c = []
    · simp only [hc, if_true, decide_True, List.length_nil, List.length_cons]
      omega
    · simp only [hc, if_false, decide_False, List.length_cons, List.length_nil]
      simp only [Bool.false_eq_true, if_false]
      omega

/-- When every render succeeds, a schedule can always be extended to one after
which `Files` has returned. -/
theorem exists_return {Tmpl : Type} (w : World Tmpl) (e : GenericTemplateBasedEncoder)
    (tmpls : List Bytes) (hall : ∀ t ∈ tmpls, ∃ c tf, buildContent w e t = .ok (c, tf)) :
    ∀ (n : Nat) (s : FilesState), s.fuel ≤ n → Inv w e tmpls s → Good w e tmpls s →
      ∃ sched s1, s.exec w e sched = some s1 ∧ s1.outcome = .returned s1.files
  | 0, s, hn, _, hG => by
    simp only [FilesState.fuel, hG.calm] at hn
    simp at hn
  | n + 1, s, hn, hI, hG => by
    by_cases hi : s.i < s.length
    · obtain ⟨c, s1, hstep⟩ := hI.progress w e tmpls s hG.calm hi
      have htr := step_sound w e s s1 c hstep
      have hlt := htr.fuel_lt
      obtain ⟨sched, s2, hex, hout⟩ := exists_return w e tmpls hall n s1 (by omega)
        (hI.step w e tmpls s s1 htr) (hG.preserved w e tmpls hall s s1 hI htr)
      exact ⟨c :: sched, s2, by simp only [FilesState.exec, hstep, hex], hout⟩
    · exact ⟨[], s, rfl, by simp [FilesState.outcome, hG.calm, hi]⟩

/-- C3: in a pass over `N` templates whose renders all succeed, whatever the
schedule of the goroutines and of the collector's `select`: no panic occurs; as
long as the collector has consumed fewer than `N` outcomes some step is
enabled, and no schedule is longer than `4 N + 1` steps, so the collector ends
up returning; `Files` can return; and when it returns the collector has
consumed exactly `N` outcomes and the returned list is a permutation of the
expected files: one entry for each template whose rendered content is not
empty, none for an empty render, hence `N` minus the number of empty renders
entries. -/
theorem files_collects_every_outcome {Tmpl : Type} (w : World Tmpl)
    (e : GenericTemplateBasedEncoder) (tmpls : List Bytes)
    (hall : ∀ t ∈ tmpls, ∃ c tf, buildContent w e t = .ok (c, tf))
    (sched : List Choice) (s : FilesState)
    (h : (FilesState.init tmpls).exec w e sched = some s) :
    s.panicked = false ∧ s.outcome ≠ .aborted ∧ s.i ≤ tmpls.length ∧
    sched.length ≤ 4 * tmpls.length + 1 ∧
    (s.i < tmpls.length → ∃ c s1, s.step w e c = some s1) ∧
    (∃ more s1, s.exec w e more = some s1 ∧ s1.outcome = .returned s1.files) ∧
    (∀ files, s.outcome = .returned files →
      s.i = tmpls.length ∧ files.Perm (expectedFiles w e tmpls) ∧
      files.length + emptyRenders w e tmpls = tmpls.length ∧
      files.length = tmpls.length - emptyRenders w e tmpls) ∧
    (templates w e = (tmpls, none) → Files w e sched = some s.outcome) := by
  have hI : Inv w e tmpls s := Inv.exec w e tmpls sched s h
  have hG : Good w e tmpls s := by
    have := exec_induction w e (fun s => Inv w e tmpls s ∧ Good w e tmpls s)
      (fun s s1 hP htr => ⟨hP.1.step w e tmpls s s1 htr, hP.2.preserved w e tmpls hall s s1 hP.1 htr⟩)
      sched _ s ⟨Inv.init w e tmpls, Good.at_init w e tmpls⟩ h
    exact this.2
  have hfuel := exec_length_le w e sched _ s h
  rw [fuel_init] at hfuel
  refine ⟨hG.calm, ?_, hI.i_le hG.calm, by omega, ?_, ?_, ?_, ?_⟩
  · simp only [FilesState.outcome, hG.calm, Bool.false_eq_true, if_false]
    split_ifs <;> simp
  · intro hi
    exact hI.progress w e tmpls s hG.calm (by rw [hI.length]; exact hi)
  · exact exists_return w e tmpls hall s.fuel s (Nat.le_refl _) hI hG
  · intro files hout
    simp only [FilesState.outcome, hG.calm, Bool.false_eq_true, if_false] at hout
    split_ifs at hout with hi
    simp only [FilesOutcome.returned.injEq] at hout
    subst hout
    obtain ⟨h1, h2, _, _, h5⟩ := hI.at_return hG.calm hi
    have hperm := hG.perm
    rw [h5, pending_all_done w e _ h2, List.append_nil, List.append_nil] at hperm
    have hlen := expectedFiles_length w e tmpls hall
    rw [← hperm.length_eq] at hlen
    exact ⟨h1, hperm, hlen, by omega⟩
  · intro ht
    simp only [Files, ht, h, Option.map_some']

/-- C3 in the demo world, on a schedule in which the three goroutines finish
out of launch order: the collector consumes three outcomes and returns the two
non-empty renders; the empty render of `empty.tmpl` gives no entry. -/
theorem files_collects_every_outcome_witness :
    (FilesState.init [ascii "empty.tmpl", ascii "foo.go.tmpl", ascii "sub.tmpl/bar.tmpl"]).exec
        demoWorld demoEncoder
        [.run 2, .run 0, .run 2, .run 1, .recvResult, .run 0, .run 1, .recvIgnore, .recvResult]
      = some demoFinal ∧
    demoFinal.outcome = .returned
      [{ Name := ascii "sub.tmpl/svc.proto_bar", Content := ascii "t/sub.tmpl/bar.tmpl" },
       { Name := ascii "./svc.proto_foo.go", Content := ascii "t/foo.go.tmpl" }] ∧
    demoFinal.i = 3 ∧
    emptyRenders demoWorld demoEncoder
      [ascii "empty.tmpl", ascii "foo.go.tmpl", ascii "sub.tmpl/bar.tmpl"] = 1 ∧
    demoFinal.panicked = false :=
  ⟨by decide, by decide, by decide, by decide,
   (files_collects_every_outcome demoWorld demoEncoder
      [ascii "empty.tmpl", ascii "foo.go.tmpl", ascii "sub.tmpl/bar.tmpl"]
      (by
        intro t ht
        simp only [List.mem_cons, List.mem_singleton, List.not_mem_nil, or_false] at ht
        rcases ht with rfl | rfl | rfl
        · exact ⟨[], ascii "./svc.proto_empty.tmpl", by decide⟩
        · exact ⟨ascii "t/foo.go.tmpl", ascii "./svc.proto_foo.go.tmpl", by decide⟩
        · exact ⟨ascii "t/sub.tmpl/bar.tmpl", ascii "sub.tmpl/svc.proto_bar.tmpl", by decide⟩)
      [.run 2, .run 0, .run 2, .run 1, .recvResult, .run 0, .run 1, .recvIgnore, .recvResult]
      demoFinal (by decide)).1⟩

theorem failDone_pos {Tmpl : Type} (w : World Tmpl) (e : GenericTemplateBasedEncoder)
    (l : List (Bytes × TaskState)) (x : Bytes × TaskState) (hx : x ∈ l)
    (hd : x.2 = TaskState.done) (hf : failedRender w e x.1 = true) : 1 ≤ failDone w e l := by
  induction l with
  | nil => cases hx
  | cons a l ih =>
    simp only [failDone, List.map_cons, List.sum_cons] at ih ⊢
    rcases List.mem_cons.mp hx with rfl | hx
    · simp only [hd, hf, and_self, if_true]
      omega
    · have := ih hx
      omega

/-- With a failed render among the templates the collector loop cannot end
without a panic. -/
theorem Inv.never_returned {Tmpl : Type} {w : World Tmpl} {e : GenericTemplateBasedEncoder}
    {tmpls : List Bytes} {s : FilesState} (hI : Inv w e tmpls s)
    (hfail : ∃ t ∈ tmpls, failedRender w e t = true) (hp : s.panicked = false) :
    s.i < s.length := by
  by_contra hi
  obtain ⟨_, hdone, herr, _, _⟩ := hI.at_return hp hi
  obtain ⟨t, ht, hf⟩ := hfail
  rw [← hI.names] at ht
  obtain ⟨x, hx, rfl⟩ := List.mem_map.mp ht
  have h1 := failDone_pos w e s.tasks x hx (hdone x hx) hf
  have h2 := hI.failed hp
  rw [herr] at h2
  simp at h2
  omega

/-- With a failed render among the templates, a schedule can always be
extended to one after which the process has panicked. -/
theorem exists_abort {Tmpl : Type} (w : World Tmpl) (e : GenericTemplateBasedEncoder)
    (tmpls : List Bytes) (hfail : ∃ t ∈ tmpls, failedRender w e t = true) :
    ∀ (n : Nat) (s : FilesState), s.fuel ≤ n → Inv w e tmpls s →
      ∃ sched s1, s.exec w e sched = some s1 ∧ s1.outcome = .aborted
  | 0, s, hn, _ => by
    have hp : s.panicked = true := by
      by_contra hp
      simp only [FilesState.fuel, hp, Bool.false_eq_true, if_false] at hn
      omega
    exact ⟨[], s, rfl, by simp [FilesState.outcome, hp]⟩
  | n + 1, s, hn, hI => by
    by_cases hp : s.panicked = true
    · exact ⟨[], s, rfl, by simp [FilesState.outcome, hp]⟩
    · have hp1 : s.panicked = false := by simpa using hp
      obtain ⟨c, s1, hstep⟩ := hI.progress w e tmpls s hp1 (hI.never_returned hfail hp1)
      have htr := step_sound w e s s1 c hstep
      have hlt := htr.fuel_lt
      obtain ⟨sched, s2, hex, hout⟩ := exists_abort w e tmpls hfail n s1 (by omega)
        (hI.step w e tmpls s s1 htr)
      exact ⟨c :: sched, s2, by simp only [FilesState.exec, hstep, hex], hout⟩

/-- C4: in a pass over `N` templates, whatever the schedule: if the render of
at least one template fails with an error, `Files` never returns a file list
(so no file of the pass reaches the merge); while it is running some step is
enabled and no schedule is longer than `4 N + 1` steps, so the pass ends, and it
ends in a panic; a schedule can always be extended to the panic. When that call
of `Files` ends the process, the encoder loop merges nothing from the pass.
Conversely, if every render succeeds, `Files` does not abort. -/
theorem failed_render_aborts {Tmpl : Type} (w : World Tmpl)
    (e : GenericTemplateBasedEncoder) (tmpls : List Bytes)
    (sched : List Choice) (s : FilesState)
    (h : (FilesState.init tmpls).exec w e sched = some s) :
    ((∃ t ∈ tmpls, ∃ err, buildContent w e t = .error (.error err)) →
      (∀ files, s.outcome ≠ .returned files) ∧
      (s.outcome = .running → ∃ c s1, s.step w e c = some s1) ∧
      sched.length ≤ 4 * tmpls.length + 1 ∧
      (∃ more s1, s.exec w e more = some s1 ∧ s1.outcome = .aborted) ∧
      (templates w e = (tmpls, none) → ∀ files, Files w e sched ≠ some (.returned files))) ∧
    ((∀ t ∈ tmpls, ∃ c tf, buildContent w e t = .ok (c, tf)) →
      s.panicked = false ∧ s.outcome ≠ .aborted) ∧
    (∀ (filesOf : Nat → GenericTemplateBasedEncoder → Option (List ResponseFile))
      (ms : MainState) (enc : GenericTemplateBasedEncoder × List Event),
      ms.aborted = false → filesOf ms.pass enc.1 = none →
      (runPass filesOf ms enc).merge = ms.merge ∧ (runPass filesOf ms enc).aborted = true) := by
  have hI : Inv w e tmpls s := Inv.exec w e tmpls sched s h
  have hfuel := exec_length_le w e sched _ s h
  rw [fuel_init] at hfuel
  refine ⟨?_, ?_, ?_⟩
  · rintro ⟨t, ht, err, herr⟩
    have hfail : ∃ t ∈ tmpls, failedRender w e t = true :=
      ⟨t, ht, by simp [failedRender, herr]⟩
    have hnot : ∀ files, s.outcome ≠ .returned files := by
      intro files hout
      simp only [FilesState.outcome] at hout
      split_ifs at hout with hp hi
      exact hi (hI.never_returned hfail (by simpa using hp))
    refine ⟨hnot, ?_, by omega, exists_abort w e tmpls hfail s.fuel s (Nat.le_refl _) hI, ?_⟩
    · intro hrun
      simp only [FilesState.outcome] at hrun
      split_ifs at hrun with hp hi
      exact hI.progress w e tmpls s (by simpa using hp) hi
    · intro htm files hF
      simp only [Files, htm, h, Option.map_some', Option.some.injEq] at hF
      exact hnot files hF
  · intro hall
    have := exec_induction w e (fun s => Inv w e tmpls s ∧ Good w e tmpls s)
      (fun s s1 hP htr => ⟨hP.1.step w e tmpls s s1 htr, hP.2.preserved w e tmpls hall s s1 hP.1 htr⟩)
      sched _ s ⟨Inv.init w e tmpls, Good.at_init w e tmpls⟩ h
    refine ⟨this.2.calm, ?_⟩
    simp only [FilesState.outcome, this.2.calm, Bool.false_eq_true, if_false]
    split_ifs <;> simp
  · intro filesOf ms enc hab hnone
    simp [runPass, hab, hnone]

/-- C4 in the broken world, where `foo.go.tmpl` does not parse: whether the
collector receives the error, or the goroutine of `foo.go.tmpl` finds `err`
overwritten and panics on its empty path, the pass aborts; it never returns. -/
theorem failed_render_aborts_witness :
    buildContent brokenWorld demoEncoder (ascii "foo.go.tmpl")
      = .error (.error (.other (ascii "bad template"))) ∧
    ((FilesState.init [ascii "empty.tmpl", ascii "foo.go.tmpl", ascii "sub.tmpl/bar.tmpl"]).exec
        brokenWorld demoEncoder
        [.run 1, .run 1, .run 0, .run 2, .run 1, .run 2, .recvResult, .recvErr]).map
      FilesState.outcome = some .aborted ∧
    (FilesState.init [ascii "empty.tmpl", ascii "foo.go.tmpl", ascii "sub.tmpl/bar.tmpl"]).exec
        brokenWorld demoEncoder [.run 1, .run 0] = some demoRaced ∧
    (demoRaced.exec brokenWorld demoEncoder [.run 1]).map FilesState.outcome = some .aborted ∧
    (∀ files, demoRaced.outcome ≠ .returned files) :=
  ⟨by decide, by decide, by decide, by decide,
   ((failed_render_aborts brokenWorld demoEncoder
      [ascii "empty.tmpl", ascii "foo.go.tmpl", ascii "sub.tmpl/bar.tmpl"] [.run 1, .run 0]
      demoRaced (by decide)).1
      ⟨ascii "foo.go.tmpl", by simp, .other (ascii "bad template"), by decide⟩).1⟩

end GoTemplate
